import Mathlib

/-!
# Verification of the content-fitting / document-assembly pipeline

Shallow embedding of the resume backend's core pipeline
(`backend/app/main.py`): text normalization, certification parsing,
structured sanitization, baseline/optimized merging, the one-page
compressor, section-order enforcement, the shrink passes, the ultra
squeeze, and the render/compile/measure fit loop.

Conventions of the embedding:
* Python dictionaries carrying the canonical resume schema are Lean
  structures; removing a key (`dict.pop`) is modelled as resetting the
  field to its empty value, because every read of these keys in the
  source goes through `.get(key, empty)`.
* All scalar values are `String`s.  The source's `ensure_text` is the
  identity on strings, so its applications are elided.
* Python string operations (`strip`, `lower`, slicing, `len`,
  `re.sub(r"\s+", " ", ...)`) act on code points and are re-implemented
  on `List Char`.
* The LLM services and the typesetting engine are external collaborators;
  the fit loop is parametrised by a template renderer and a compiler
  returning (document bytes, measured page count).
-/

namespace TellerMade

/-! ## Python string primitives -/

/-- Python `str.rstrip()`: drop trailing whitespace. -/
def rstripChars : List Char → List Char
  | [] => []
  | c :: rest =>
    let r := rstripChars rest
    if r = [] ∧ c.isWhitespace then [] else c :: r

/-- Python `str.lstrip()`: drop leading whitespace. -/
def lstripChars (l : List Char) : List Char := l.dropWhile Char.isWhitespace

/-- Python `str.strip()`. -/
def stripChars (l : List Char) : List Char := rstripChars (lstripChars l)

/-- Python `str.strip()` on `String`. -/
def pyStrip (s : String) : String := ⟨stripChars s.data⟩

/-- Python `str.lower()` on `String` (ASCII case folding). -/
def pyLower (s : String) : String := ⟨s.data.map Char.toLower⟩

/-- One pass of `re.sub(r"\s+", " ", s)`: collapse each maximal whitespace
run into a single space.  `prevWs` records whether we are inside a run
whose space has already been emitted. -/
def collapseGo : Bool → List Char → List Char
  | _, [] => []
  | prevWs, c :: rest =>
    if c.isWhitespace then
      if prevWs then collapseGo true rest else ' ' :: collapseGo true rest
    else c :: collapseGo false rest

/-- `re.sub(r"\s+", " ", s)` on a character list. -/
def collapseChars (l : List Char) : List Char := collapseGo false l

/-- Whitespace-normal form (the shape `collapseChars` produces): every
whitespace character is a plain space, and no two adjacent characters
are both whitespace. -/
def wsNormB : List Char → Bool
  | [] => true
  | [c] => !c.isWhitespace || c == ' '
  | c :: c2 :: rest =>
    (!c.isWhitespace || c == ' ') && !(c.isWhitespace && c2.isWhitespace)
      && wsNormB (c2 :: rest)

/-- `shorten_text` (main.py): collapse whitespace, strip, and if the result
exceeds `maxChars` code points, truncate to `s[:maxChars - 1].rstrip()`
followed by a single ellipsis character. -/
def shortenChars (maxChars : Nat) (t : List Char) : List Char :=
  let s := stripChars (collapseChars t)
  if s.length ≤ maxChars then s else rstripChars (s.take (maxChars - 1)) ++ ['…']

/-- `shorten_text` on `String`. -/
def shorten_text (t : String) (maxChars : Nat) : String := ⟨shortenChars maxChars t.data⟩

/-- The none-like tokens cleared by `_clean_none`. -/
def noneLikeTokens : List String := ["none", "null", "n/a", "-", "—"]

/-- `_clean_none` (main.py): strip, and map none-like tokens to `""`. -/
def _clean_none (s : String) : String :=
  let t := pyStrip s
  if pyLower t ∈ noneLikeTokens then "" else t

/-- Worker for `limit_bullets`; `cnt` is `len(out)` so far.  The source
appends each stripped non-empty bullet and breaks as soon as
`len(out) >= max_n` (the check runs on every iteration). -/
def limitBulletsGo (maxN : Nat) : List String → Nat → List String
  | [], _ => []
  | b :: rest, cnt =>
    let s := pyStrip b
    if s = "" then
      (if maxN ≤ cnt then [] else limitBulletsGo maxN rest cnt)
    else
      (if maxN ≤ cnt + 1 then [s] else s :: limitBulletsGo maxN rest (cnt + 1))

/-- `limit_bullets` (main.py). -/
def limit_bullets (items : List String) (maxN : Nat) : List String :=
  limitBulletsGo maxN items 0

/-! ## Regex fragments used by the certification parser -/

/-- Regex `\w` (ASCII view): letters, digits, underscore. -/
def isWordChar (c : Char) : Bool := c.isAlphanum || c == '_'

/-- Match `\b(20\d{2}|19\d{2})\b` exactly at the head of `cs`; `prev` is
the character immediately before the match position, if any. -/
def yearAt (prev : Option Char) : List Char → Option String
  | a :: b :: c :: d :: rest =>
    if (match prev with | none => true | some p => !isWordChar p)
        && ((a == '2' && b == '0') || (a == '1' && b == '9'))
        && c.isDigit && d.isDigit
        && (match rest with | [] => true | e :: _ => !isWordChar e)
    then some ⟨[a, b, c, d]⟩ else none
  | _ => none

/-- Leftmost search for the year pattern. -/
def searchYearGo (prev : Option Char) : List Char → Option String
  | [] => none
  | c :: rest =>
    match yearAt prev (c :: rest) with
    | some y => some y
    | none => searchYearGo (some c) rest

/-- `re.search(r"\b(20\d{2}|19\d{2})\b", s)`, returning the matched year. -/
def searchYear (s : String) : Option String := searchYearGo none s.data

/-- `needle` is a prefix of `hay` (Python `hay.startswith(needle)`). -/
def listStartsWith : List Char → List Char → Bool
  | [], _ => true
  | _ :: _, [] => false
  | n :: ns, h :: hs => n == h && listStartsWith ns hs

/-- `re.match(r"https?://", p, re.I)`: case-insensitive anchored match. -/
def startsWithHttp (p : String) : Bool :=
  listStartsWith "http://".data (pyLower p).data
    || listStartsWith "https://".data (pyLower p).data

/-- Python `needle in hay` substring containment. -/
def listContainsSub (needle : List Char) : List Char → Bool
  | [] => needle.isEmpty
  | h :: hs => listStartsWith needle (h :: hs) || listContainsSub needle hs

/-- `any(k in p.lower() for k in ["https://", "http://"])`. -/
def containsHttp (p : String) : Bool :=
  listContainsSub "https://".data (pyLower p).data
    || listContainsSub "http://".data (pyLower p).data

/-- Python `str.strip("; ")`: drop leading/trailing `';'` and `' '`. -/
def rstripSetChars (set : List Char) : List Char → List Char
  | [] => []
  | c :: rest =>
    let r := rstripSetChars set rest
    if r = [] ∧ c ∈ set then [] else c :: r

/-- Python `s.strip(chars)` on `String`. -/
def pyStripSet (set : List Char) (s : String) : String :=
  ⟨rstripSetChars set (s.data.dropWhile (fun c => set.contains c))⟩

/-- `(desc + "; " + p).strip("; ")` — how the certification parser
accumulates description segments. -/
def joinDescSeg (desc p : String) : String :=
  pyStripSet [';', ' '] (desc ++ "; " ++ p)

/-! ## Certification entries and `normalize_cert_item` -/

/-- A normalized certification entry (`{name, issuer, date, link,
description}`). -/
structure Cert where
  name : String
  issuer : String
  date : String
  link : String
  description : String
deriving DecidableEq

/-- A certification as it may arrive from extraction: either a free-form
string or an already-structured entry. -/
abbrev CertItem := Sum String Cert

/-- The separator preference list of `normalize_cert_item`. -/
def CERT_SEPS : List String := ["|", "•", " - ", " — ", "–", ","]

/-- Worker for Python `str.split(sep)`: left-to-right, non-overlapping.
`acc` is the current piece reversed; `fuel` starts at the input length
and strictly dominates the number of steps, so the `fuel = 0` fallback
is never reached (structural recursion on `fuel` keeps the definition
kernel-computable). -/
def splitOnGo (sep : List Char) : Nat → List Char → List Char →
    List (List Char)
  | _, [], acc => [acc.reverse]
  | 0, l, acc => [acc.reverse ++ l]
  | fuel + 1, c :: rest, acc =>
    if listStartsWith sep (c :: rest) then
      acc.reverse :: splitOnGo sep fuel ((c :: rest).drop sep.length) []
    else splitOnGo sep fuel rest (c :: acc)

/-- Python `s.split(sep)` for a non-empty separator. -/
def pySplit (s sep : String) : List String :=
  match sep.data with
  | [] => [s]
  | c0 :: sr =>
    (splitOnGo (c0 :: sr) s.data.length s.data []).map
      (fun l => (⟨l⟩ : String))

/-- Split `raw` on the first separator (from the preference list) that
occurs in it, stripping each piece and dropping empty pieces; if no
separator occurs, the whole string is the single part. -/
def certSplitParts (raw : String) : List String :=
  match CERT_SEPS.find? (fun sep => listContainsSub sep.data raw.data) with
  | some sep => ((pySplit raw sep).map pyStrip).filter (fun p => p ≠ "")
  | none => [raw]

/-- The mutable slots filled by the classification loop of
`normalize_cert_item` (`issuer, date, link, desc`). -/
structure CertSlots where
  issuer : String
  date : String
  link : String
  desc : String
deriving DecidableEq

/-- One iteration of the classification loop over `parts[1:]`:
1. if the date slot is empty and the segment contains a year, the year
   claims the date slot;
2. else if the link slot is empty and the segment starts with
   `http(s)://`, it claims the link slot;
3. else if the issuer slot is empty and the segment contains no
   `http(s)://` substring anywhere, it claims the issuer slot;
4. else it accumulates into the description. -/
def classifyCertSeg (st : CertSlots) (ptxt : String) : CertSlots :=
  match (if st.date = "" then searchYear ptxt else none) with
  | some y => { st with date := y }
  | none =>
    if st.link = "" ∧ startsWithHttp ptxt then { st with link := ptxt }
    else if st.issuer = "" ∧ ¬containsHttp ptxt then { st with issuer := ptxt }
    else { st with desc := joinDescSeg st.desc ptxt }

/-- The classification loop. -/
def classifyCertSegs (parts : List String) (st : CertSlots) : CertSlots :=
  parts.foldl classifyCertSeg st

/-- The dict branch of `normalize_cert_item`. -/
def normalizeCertDict (c : Cert) : Cert :=
  { name := _clean_none c.name
    issuer := _clean_none c.issuer
    date := _clean_none c.date
    link := _clean_none c.link
    description := shorten_text (_clean_none c.description) 160 }

/-- `normalize_cert_item` (main.py).  For a raw string the source returns
just `{"name": ""}` when the stripped input is empty; every consumer reads
the remaining keys through `.get(key, "")`, so this is the all-empty
entry here. -/
def normalize_cert_item : CertItem → Cert
  | .inr c => normalizeCertDict c
  | .inl x =>
    let raw := pyStrip x
    if raw = "" then ⟨"", "", "", "", ""⟩
    else
      let parts := certSplitParts raw
      let name := parts.headD raw
      let st := classifyCertSegs parts.tail ⟨"", "", "", ""⟩
      { name := _clean_none name
        issuer := _clean_none st.issuer
        date := _clean_none st.date
        link := _clean_none st.link
        description := shorten_text (_clean_none st.desc) 160 }

/-! ## The resume record -/

/-- A `{label, url}` link entry. -/
structure LinkEntry where
  label : String
  url : String
deriving DecidableEq

/-- An experience entry. -/
structure Exp where
  title : String
  company : String
  location : String
  start_date : String
  end_date : String
  summary : String
  bullets : List String
deriving DecidableEq

/-- A project entry. -/
structure Proj where
  name : String
  tech : String
  link : String
  summary : String
  start_date : String
  end_date : String
  bullets : List String
deriving DecidableEq

/-- An education entry. -/
structure Edu where
  degree : String
  institution : String
  location : String
  graduation_year : String
  details : List String
deriving DecidableEq

/-- The canonical (sanitized) resume record: the shape produced by
`sanitize_struct`, with certifications already normalized to dicts. -/
structure Record where
  first_name : String
  last_name : String
  email : String
  phone : String
  location : String
  summary : String
  links : List LinkEntry
  skills : List String
  skills_row1 : Option String
  skills_row2 : Option String
  skills_row3 : Option String
  experience : List Exp
  projects : List Proj
  education : List Edu
  certifications : List Cert
  publications : List String
  show_summary : Bool
  section_order : List String
deriving DecidableEq

/-- A pre-sanitization record: same schema, but certifications may still
be free-form strings. -/
structure RawRecord where
  first_name : String
  last_name : String
  email : String
  phone : String
  location : String
  summary : String
  links : List LinkEntry
  skills : List String
  skills_row1 : Option String
  skills_row2 : Option String
  skills_row3 : Option String
  experience : List Exp
  projects : List Proj
  education : List Edu
  certifications : List CertItem
  publications : List String
  show_summary : Bool
  section_order : List String
deriving DecidableEq

/-- View a sanitized record as an input record again (its certification
dicts are certification items); Python needs no such step since both are
plain dicts. -/
def injRecord (r : Record) : RawRecord :=
  { first_name := r.first_name, last_name := r.last_name, email := r.email
    phone := r.phone, location := r.location, summary := r.summary
    links := r.links, skills := r.skills
    skills_row1 := r.skills_row1, skills_row2 := r.skills_row2
    skills_row3 := r.skills_row3
    experience := r.experience, projects := r.projects
    education := r.education
    certifications := r.certifications.map Sum.inr
    publications := r.publications
    show_summary := r.show_summary, section_order := r.section_order }

/-- The all-empty input record. -/
def emptyRaw : RawRecord :=
  { first_name := "", last_name := "", email := "", phone := ""
    location := "", summary := "", links := [], skills := []
    skills_row1 := none, skills_row2 := none, skills_row3 := none
    experience := [], projects := [], education := [], certifications := []
    publications := [], show_summary := false, section_order := [] }

/-- The all-empty experience entry. -/
def emptyExp : Exp :=
  { title := "", company := "", location := "", start_date := ""
    end_date := "", summary := "", bullets := [] }

/-! ## `sanitize_struct` -/

/-- Experience sanitization: scalars coerced (identity on strings),
bullets filtered to non-empty strings. -/
def sanitizeExp (e : Exp) : Exp :=
  { e with bullets := e.bullets.filter (fun b => b ≠ "") }

/-- Project sanitization. -/
def sanitizeProj (p : Proj) : Proj :=
  { p with bullets := p.bullets.filter (fun b => b ≠ "") }

/-- Education sanitization: details filtered to non-empty strings. -/
def sanitizeEdu (e : Edu) : Edu :=
  { e with details := e.details.filter (fun d => d ≠ "") }

/-- `sanitize_struct` (main.py): coerce scalars, keep link entries, drop
empty skills, sanitize nested lists, normalize certifications, keep
publications.  Unlisted keys (`show_summary`, `section_order`,
`skills_rowN`) pass through the `dict(d)` copy untouched. -/
def sanitize_struct (d : RawRecord) : Record :=
  { first_name := d.first_name, last_name := d.last_name, email := d.email
    phone := d.phone, location := d.location, summary := d.summary
    links := d.links
    skills := d.skills.filter (fun s => s ≠ "")
    skills_row1 := d.skills_row1, skills_row2 := d.skills_row2
    skills_row3 := d.skills_row3
    experience := d.experience.map sanitizeExp
    projects := d.projects.map sanitizeProj
    education := d.education.map sanitizeEdu
    certifications := d.certifications.map normalize_cert_item
    publications := d.publications
    show_summary := d.show_summary
    section_order := d.section_order }

/-! ## Merging (`merge_structured`) -/

/-- `_key_exp`: (title lowercased, company lowercased). -/
def _key_exp (e : Exp) : String × String := (pyLower e.title, pyLower e.company)

/-- `_key_edu`: (degree lowercased, institution lowercased). -/
def _key_edu (e : Edu) : String × String :=
  (pyLower e.degree, pyLower e.institution)

/-- `_key_proj`: name lowercased. -/
def _key_proj (p : Proj) : String := pyLower p.name

/-- Lookup in the Python dict `{key(e): e for e in l}` — for duplicate
keys the dict keeps the value of the LAST entry. -/
def dictLookup {α κ : Type} [DecidableEq κ] (keyf : α → κ) (l : List α)
    (k : κ) : Option α :=
  l.reverse.find? (fun e => decide (keyf e = k))

/-- The distinct keys of `l` in order of first occurrence (Python dict
key insertion order). -/
def dedupFirst {κ : Type} [DecidableEq κ] (l : List κ) : List κ :=
  l.foldl (fun acc k => if k ∈ acc then acc else acc ++ [k]) []

/-- The values of the Python dict `{key(e): e for e in l}` in iteration
order: keys in order of first occurrence, each mapped to the value of its
last occurrence. -/
def dictValues {α κ : Type} [DecidableEq κ] (keyf : α → κ) (l : List α) :
    List α :=
  (dedupFirst (l.map keyf)).filterMap (fun k => dictLookup keyf l k)

/-- `_merge_links` worker: union by url (first occurrence wins), empty
urls dropped, falsy labels replaced by `"Link"`. -/
def mergeLinksGo : List LinkEntry → List String → List LinkEntry
  | [], _ => []
  | l :: rest, seen =>
    let url := l.url
    let label := if l.label ≠ "" then l.label else "Link"
    if url ≠ "" ∧ url ∉ seen then
      ⟨label, url⟩ :: mergeLinksGo rest (url :: seen)
    else mergeLinksGo rest seen

/-- `_merge_links` (main.py). -/
def _merge_links (a b : List LinkEntry) : List LinkEntry :=
  mergeLinksGo (a ++ b) []

/-- Education merge step: an optimized entry inherits the baseline's
details / graduation year / location when its own are empty. -/
def mergeEduEntry (origEdu : List Edu) (e : Edu) : Edu :=
  match dictLookup _key_edu origEdu (_key_edu e) with
  | none => e
  | some o =>
    let b1 := if e.details = [] ∧ o.details ≠ [] then
        { e with details := o.details } else e
    let b2 := if b1.graduation_year = "" ∧ o.graduation_year ≠ "" then
        { b1 with graduation_year := o.graduation_year } else b1
    if b2.location = "" ∧ o.location ≠ "" then
      { b2 with location := o.location } else b2

/-- Experience merge step: inherit baseline bullets when empty, baseline
summary when empty. -/
def mergeExpEntry (origExp : List Exp) (e : Exp) : Exp :=
  match dictLookup _key_exp origExp (_key_exp e) with
  | none => e
  | some o =>
    let b1 := if e.bullets = [] then { e with bullets := o.bullets } else e
    if b1.summary = "" ∧ o.summary ≠ "" then
      { b1 with summary := o.summary } else b1

/-- Project merge step: inherit baseline bullets / summary / link when
empty. -/
def mergeProjEntry (origProj : List Proj) (p : Proj) : Proj :=
  match dictLookup _key_proj origProj (_key_proj p) with
  | none => p
  | some o =>
    let b1 := if p.bullets = [] then { p with bullets := o.bullets } else p
    let b2 := if b1.summary = "" ∧ o.summary ≠ "" then
        { b1 with summary := o.summary } else b1
    if b2.link = "" ∧ o.link ≠ "" then { b2 with link := o.link } else b2

/-- `merge_structured` (main.py): sanitize both sides, start from the
optimized record, then apply the per-section merge policies. -/
def merge_structured (original optimized : RawRecord) : Record :=
  let o := sanitize_struct original
  let p := sanitize_struct optimized
  let merged_edu :=
    p.education.map (mergeEduEntry o.education)
      ++ o.education.filter (fun oe =>
        ¬ p.education.any (fun e => decide (_key_edu e = _key_edu oe)))
  let merged_exp := p.experience.map (mergeExpEntry o.experience)
  let merged_proj := p.projects.map (mergeProjEntry o.projects)
  let merged_proj := merged_proj
      ++ (dictValues _key_proj o.projects).filter (fun op =>
        ¬ merged_proj.any (fun mp => decide (_key_proj mp = _key_proj op)))
  { p with
    skills :=
      if p.skills ≠ [] ∧ max 3 (o.skills.length / 2) ≤ p.skills.length then
        p.skills
      else o.skills
    education := merged_edu
    experience := if merged_exp ≠ [] then merged_exp else o.experience
    projects := merged_proj
    links := _merge_links o.links p.links
    location :=
      if p.location = "" ∧ o.location ≠ "" then o.location else p.location }

/-! ## Size proxy (`_approx_char_count`) -/

/-- Sum of string lengths. -/
def sumLens (l : List String) : Nat := (l.map String.length).sum

/-- Characters contributed by an experience entry. -/
def expChars (e : Exp) : Nat :=
  e.title.length + e.company.length + e.location.length
    + e.start_date.length + e.end_date.length + e.summary.length
    + sumLens e.bullets

/-- Characters contributed by a project entry (dates and link are NOT
counted by the source). -/
def projChars (p : Proj) : Nat :=
  p.name.length + p.tech.length + p.summary.length + sumLens p.bullets

/-- Characters contributed by an education entry. -/
def eduChars (e : Edu) : Nat :=
  e.degree.length + e.institution.length + e.location.length
    + e.graduation_year.length + sumLens e.details

/-- Characters contributed by a certification (link is NOT counted). -/
def certChars (c : Cert) : Nat :=
  c.name.length + c.issuer.length + c.date.length + c.description.length

/-- `_approx_char_count` (main.py). -/
def _approx_char_count (d : Record) : Nat :=
  d.first_name.length + d.last_name.length + d.summary.length
    + sumLens d.skills
    + (d.experience.map expChars).sum
    + (d.projects.map projChars).sum
    + (d.education.map eduChars).sum
    + (d.certifications.map certChars).sum
    + sumLens d.publications

/-! ## One-page compression (`compress_payload_for_one_page`) -/

/-- Adaptive sizing knobs (main.py module constants). -/
def MAX_EXP_DEFAULT : Nat := 3

def MAX_PROJ_DEFAULT : Nat := 2

def MAX_EDU_DEFAULT : Nat := 2

def MAX_BULLETS_EXP_DEFAULT : Nat := 2

def MAX_BULLETS_PROJ_DEFAULT : Nat := 2

def MAX_CERTS_DEFAULT : Nat := 6

def MAX_PUBLICATIONS_DEFAULT : Nat := 4

def MAX_SKILLS_DEFAULT : Nat := 12

/-- Content bands. -/
def SHORT_MAX : Nat := 1650

def LONG_MIN : Nat := 2900

/-- The per-band limits chosen at the head of
`compress_payload_for_one_page`. -/
structure BandParams where
  max_exp : Nat
  max_proj : Nat
  max_edu : Nat
  max_cert : Nat
  max_bullets_exp : Nat
  max_bullets_proj : Nat
  sum_limit_exp : Nat
  sum_limit_proj : Nat
deriving DecidableEq

/-- Band parameter selection (the `if base_chars < SHORT_MAX /
elif base_chars >= LONG_MIN / else` block). -/
def bandParams (base_chars : Nat) : BandParams :=
  if base_chars < SHORT_MAX then
    { max_exp := min 4 (MAX_EXP_DEFAULT + 1)
      max_proj := min 3 (MAX_PROJ_DEFAULT + 1)
      max_edu := MAX_EDU_DEFAULT, max_cert := MAX_CERTS_DEFAULT
      max_bullets_exp := 4, max_bullets_proj := 4
      sum_limit_exp := 280, sum_limit_proj := 220 }
  else if LONG_MIN ≤ base_chars then
    { max_exp := MAX_EXP_DEFAULT, max_proj := MAX_PROJ_DEFAULT
      max_edu := MAX_EDU_DEFAULT, max_cert := min 5 MAX_CERTS_DEFAULT
      max_bullets_exp := MAX_BULLETS_EXP_DEFAULT
      max_bullets_proj := MAX_BULLETS_PROJ_DEFAULT
      sum_limit_exp := 200, sum_limit_proj := 160 }
  else
    { max_exp := MAX_EXP_DEFAULT, max_proj := MAX_PROJ_DEFAULT
      max_edu := MAX_EDU_DEFAULT, max_cert := MAX_CERTS_DEFAULT
      max_bullets_exp := 3, max_bullets_proj := 3
      sum_limit_exp := 220, sum_limit_proj := 180 }

/-- `_normalize_dates` on one experience entry: an empty end date with a
non-empty start date becomes `"Present"`. -/
def normalizeDatesExp (e : Exp) : Exp :=
  if pyStrip e.start_date ≠ "" ∧ pyStrip e.end_date = "" then
    { e with end_date := "Present" }
  else e

/-- `_normalize_dates` on one project entry. -/
def normalizeDatesProj (p : Proj) : Proj :=
  if pyStrip p.start_date ≠ "" ∧ pyStrip p.end_date = "" then
    { p with end_date := "Present" }
  else p

/-- Per-entry experience shaping inside the compressor. -/
def shapeExpEntry (bp : BandParams) (e : Exp) : Exp :=
  let e := normalizeDatesExp e
  { e with summary := shorten_text e.summary bp.sum_limit_exp
           bullets := limit_bullets e.bullets bp.max_bullets_exp }

/-- Per-entry project shaping inside the compressor. -/
def shapeProjEntry (bp : BandParams) (p : Proj) : Proj :=
  let p := normalizeDatesProj p
  { p with summary := shorten_text p.summary bp.sum_limit_proj
           bullets := limit_bullets p.bullets bp.max_bullets_proj }

/-- Per-entry education shaping inside the compressor: shorten details
to 120 characters when the details list is non-empty. -/
def shapeEduEntry (e : Edu) : Edu :=
  if e.details ≠ [] then
    { e with details := e.details.map (fun x => shorten_text x 120) }
  else e

/-- Clean every field of a certification with `_clean_none`. -/
def cleanCert (c : Cert) : Cert :=
  { name := _clean_none c.name, issuer := _clean_none c.issuer
    date := _clean_none c.date, link := _clean_none c.link
    description := _clean_none c.description }

/-- A certification with every cleaned field empty is skipped. -/
def certIsEmpty (c : Cert) : Bool :=
  c.name == "" && c.issuer == "" && c.date == "" && c.link == ""
    && c.description == ""

/-- The certification dedup identity key. -/
def certKey (c : Cert) : String × String × String × String :=
  (pyLower c.name, pyLower c.issuer, c.date, c.link)

/-- The clean/skip/dedup loop over normalized certifications. -/
def dedupCerts : List Cert → List (String × String × String × String) →
    List Cert
  | [], _ => []
  | c :: rest, seen =>
    let c := cleanCert c
    if certIsEmpty c then dedupCerts rest seen
    else if certKey c ∈ seen then dedupCerts rest seen
    else c :: dedupCerts rest (certKey c :: seen)

/-- The shaping stage of `compress_payload_for_one_page`, applied to the
sanitized record with the chosen band limits. -/
def compressShape (d : Record) (bp : BandParams) : Record :=
  let exp := (d.experience.map (shapeExpEntry bp)).take bp.max_exp
  let projs := (d.projects.map (shapeProjEntry bp)).take bp.max_proj
  let edu := (d.education.map shapeEduEntry).take bp.max_edu
  let certs :=
    (dedupCerts (d.certifications.map normalizeCertDict) []).take bp.max_cert
  let pubs := d.publications.take MAX_PUBLICATIONS_DEFAULT
  let skills :=
    (d.skills.map (fun s => shorten_text s 90)).take MAX_SKILLS_DEFAULT
  let richness :=
    (exp.filter (fun e => e.title ≠ "" ∨ e.company ≠ "")).length
      + (skills.filter (fun s => s ≠ "")).length + edu.length
  { d with experience := exp, projects := projs, education := edu
           certifications := certs, publications := pubs, skills := skills
           show_summary := decide (d.summary ≠ "" ∧ richness < 6) }

/-- `compress_payload_for_one_page` (main.py). -/
def compress_payload_for_one_page (data : RawRecord) : Record :=
  let d := sanitize_struct data
  compressShape d (bandParams (_approx_char_count d))

/-! ## Section order, shrink passes, ultra squeeze -/

/-- `WANTED_SECTION_ORDER` (main.py). -/
def WANTED_SECTION_ORDER : List String :=
  ["summary", "education", "projects", "skills", "certifications"]

/-- `enforce_section_order` (main.py): drop the experience and
publications sections (modelled as emptying them), recompute
`show_summary` from the summary text, and attach the canonical order. -/
def enforce_section_order (data : Record) : Record :=
  { data with
    experience := []
    publications := []
    show_summary := decide (data.summary ≠ "")
    section_order := WANTED_SECTION_ORDER }

/-- `_apply_shrink_pass` (main.py). -/
def _apply_shrink_pass (data : Record) (pass_no : Nat) : Record :=
  if pass_no = 1 then
    { data with
      experience := data.experience.map (fun e =>
        { e with bullets := e.bullets.take 2
                 summary := shorten_text e.summary 180 })
      projects := data.projects.map (fun p =>
        { p with bullets := p.bullets.take 2
                 summary := shorten_text p.summary 160 })
      skills := data.skills.take 10
      certifications := data.certifications.take 3 }
  else if pass_no = 2 then
    { data with
      experience := (data.experience.map (fun e =>
        { e with bullets := e.bullets.take 2
                 summary := shorten_text e.summary 160 })).take 2
      projects := (data.projects.map (fun p =>
        { p with bullets := p.bullets.take 2
                 summary := shorten_text p.summary 140 })).take 1
      education := data.education.take 1
      certifications := data.certifications.take 2
      skills := data.skills.take 9 }
  else if pass_no = 3 then
    { data with
      experience := (data.experience.map (fun e =>
        { e with bullets := e.bullets.take 2
                 summary := shorten_text e.summary 140 })).take 2
      projects := (data.projects.map (fun p =>
        { p with bullets := p.bullets.take 1
                 summary := shorten_text p.summary 120 })).take 1
      education := data.education.take 1
      certifications := []
      publications := []
      skills := data.skills.take 8
      show_summary := false }
  else
    { data with
      experience := (data.experience.map (fun e =>
        { e with bullets := e.bullets.take 1
                 summary := shorten_text e.summary 120 })).take 2
      projects := (data.projects.map (fun p =>
        { p with bullets := p.bullets.take 1
                 summary := shorten_text p.summary 100 })).take 1
      education := data.education.take 1
      certifications := []
      publications := []
      skills := data.skills.take 6
      show_summary := false }

/-- `_ultra_squeeze_to_one_page` (main.py). -/
def _ultra_squeeze_to_one_page (data : Record) : Record :=
  let d := enforce_section_order data
  let summary := shorten_text d.summary 110
  { d with
    summary := summary
    show_summary := decide (summary ≠ "")
    education := (d.education.take 1).map (fun e =>
      { e with details := (e.details.take 1).map (fun x => shorten_text x 90) })
    projects := (d.projects.take 1).map (fun p =>
      { p with summary := shorten_text p.summary 90
               bullets := (p.bullets.take 1).map (fun b => shorten_text b 90) })
    skills := d.skills.take 6
    skills_row1 := d.skills_row1.map (fun s => ⟨s.data.take 70⟩)
    skills_row2 := d.skills_row2.map (fun s => ⟨s.data.take 70⟩)
    skills_row3 := d.skills_row3.map (fun s => ⟨s.data.take 70⟩)
    certifications := (d.certifications.take 2).map (fun c =>
      { name := shorten_text c.name 50, issuer := shorten_text c.issuer 40
        date := ⟨c.date.data.take 4⟩, link := c.link, description := "" }) }

/-! ## Page-count parsing (`_compile_with_page_count`) -/

/-- Digits to a number, `int(...)` on the captured group. -/
def digitsToNat (ds : List Char) : Nat :=
  ds.foldl (fun n c => n * 10 + (c.toNat - '0'.toNat)) 0

/-- Match `\((\d+)\s+pages?\)` exactly at the head of the list. -/
def pagesMarkerAt : List Char → Option Nat
  | '(' :: rest =>
    let digits := rest.takeWhile Char.isDigit
    if digits = [] then none
    else
      let r2 := rest.dropWhile Char.isDigit
      let ws := r2.takeWhile Char.isWhitespace
      if ws = [] then none
      else
        match r2.dropWhile Char.isWhitespace with
        | 'p' :: 'a' :: 'g' :: 'e' :: tail =>
          match tail with
          | 's' :: ')' :: _ => some (digitsToNat digits)
          | ')' :: _ => some (digitsToNat digits)
          | _ => none
        | _ => none
  | _ => none

/-- Leftmost scan for the page marker. -/
def findPagesGo : List Char → Option Nat
  | [] => none
  | c :: rest =>
    match pagesMarkerAt (c :: rest) with
    | some n => some n
    | none => findPagesGo rest

/-- `re.search(rb"\((\d+)\s+pages?\)", stdout)`, returning the count. -/
def findPageMarker (s : String) : Option Nat := findPagesGo s.data

/-- The page count reported by `_compile_with_page_count`: the marker's
number, or 1 when the marker is absent from the compiler's stdout. -/
def pages_from_stdout (s : String) : Nat := (findPageMarker s).getD 1

/-- Document bytes. -/
abbrev Bytes := List Nat

/-- The observable outcome of one `pdflatex` invocation (the model treats
the two passes the source runs as identical; `stdout` is the last pass's
captured output, `pdf` is `some` when `resume.pdf` exists afterwards). -/
structure PdflatexRun where
  returncode : Int
  stdout : String
  pdf : Option Bytes
deriving DecidableEq

/-- Errors `_compile_with_page_count` can raise. -/
inductive CompileError where
  | latexFailed (log : String)
  | noPdf
deriving DecidableEq

/-- `_compile_with_page_count` (main.py), parametrised by the external
`pdflatex` behaviour. -/
def _compile_with_page_count (run : String → PdflatexRun) (tex : String) :
    Except CompileError (Bytes × Nat) :=
  let r := run tex
  if r.returncode ≠ 0 then .error (.latexFailed r.stdout)
  else
    match r.pdf with
    | none => .error .noPdf
    | some bytes => .ok (bytes, pages_from_stdout r.stdout)

/-! ## The fit loop (`render_and_compile_one_page`) -/

/-- The error payload of a `fastapi.HTTPException`. -/
structure HTTPErr where
  status : Nat
  detail : String
deriving DecidableEq

/-- The terminal fitting failure (`HTTPException(400, ...)`). -/
def fittingFailure : HTTPErr :=
  ⟨400, "Content could not be constrained to one page."⟩

/-- The standard shrink-pass loop (`for pass_no in (1, 2, 3, 4)`):
render, compile, accept on `pages <= 1`, else shrink and re-enforce the
section order.  Returns either the accepted bytes or the working record
left for the squeeze phase, paired with the number of compile calls. -/
def standardPasses (render : Record → String)
    (compile : String → Bytes × Nat) :
    List Nat → Record → (Sum Record Bytes) × Nat
  | [], w => (.inl w, 0)
  | pass_no :: rest, w =>
    let res := compile (render w)
    if res.2 ≤ 1 then (.inr res.1, 1)
    else
      let next := standardPasses render compile rest
        (enforce_section_order (_apply_shrink_pass w pass_no))
      (next.1, next.2 + 1)

/-- The ultra-squeeze loop (`for _ in range(3)`), with its compile-call
count. -/
def squeezeLoop (render : Record → String)
    (compile : String → Bytes × Nat) :
    Nat → Record → Option Bytes × Nat
  | 0, _ => (none, 0)
  | n + 1, w =>
    let w2 := _ultra_squeeze_to_one_page w
    let res := compile (render w2)
    if res.2 ≤ 1 then (some res.1, 1)
    else
      let next := squeezeLoop render compile n w2
      (next.1, next.2 + 1)

/-- `render_and_compile_one_page` (main.py), parametrised by the template
renderer and a total compiler oracle returning (bytes, measured pages);
a compiler exception aborts the loop in the source and is outside this
model (spec §7: shrink passes respond to page-count overflow, not to
compile errors). -/
def render_and_compile_one_page (render : Record → String)
    (compile : String → Bytes × Nat) (data : Record) :
    Except HTTPErr Bytes :=
  let working := enforce_section_order data
  match (standardPasses render compile [1, 2, 3, 4] working).1 with
  | .inr pdf => .ok pdf
  | .inl w =>
    match (squeezeLoop render compile 3 w).1 with
    | some pdf => .ok pdf
    | none => .error fittingFailure

/-- Total number of compiler invocations the fit loop performs on
`data`. -/
def fitCompileCount (render : Record → String)
    (compile : String → Bytes × Nat) (data : Record) : Nat :=
  let r := standardPasses render compile [1, 2, 3, 4]
    (enforce_section_order data)
  match r.1 with
  | .inr _ => r.2
  | .inl w => r.2 + (squeezeLoop render compile 3 w).2

/-- The compiler oracle the fit loop sees while every `pdflatex` run
succeeds: the produced bytes and the page count parsed from stdout. -/
def oracleOfRun (run : String → PdflatexRun) (tex : String) : Bytes × Nat :=
  ((run tex).pdf.getD [], pages_from_stdout (run tex).stdout)

/-! ## Spec-side definitions, for comparison with the code

The following definitions follow the *claims'* wording (not the source);
they exist only to be compared against the source-derived definitions
above. -/

/-- Modelled from the claim's words (C2): the merged skills list is the
optimized record's sanitized skills, except exactly when the optimized
list's length is less than half the baseline's and the baseline has at
least 3 skills, in which case it is the baseline's sanitized skills. -/
def skillsPerClaim (original optimized : RawRecord) : List String :=
  let ok := (sanitize_struct original).skills
  let pk := (sanitize_struct optimized).skills
  if 2 * pk.length < ok.length ∧ 3 ≤ ok.length then ok else pk

/-- Modelled from the claim's words (C5): a segment containing a
4-digit year claims the date slot once; a segment beginning `http(s)://`
claims the link slot once; a segment with neither claims the issuer slot
once; every remaining segment accumulates into the description. -/
def classifySegPerClaim (st : CertSlots) (ptxt : String) : CertSlots :=
  match (if st.date = "" then searchYear ptxt else none) with
  | some y => { st with date := y }
  | none =>
    if st.link = "" ∧ startsWithHttp ptxt then { st with link := ptxt }
    else if st.issuer = "" ∧ (searchYear ptxt).isNone ∧ ¬startsWithHttp ptxt
      then { st with issuer := ptxt }
    else { st with desc := joinDescSeg st.desc ptxt }

/-- Certification parsing of a raw string exactly as claim C5 words it
(same split, name and output cleaning as the source, but segment
classification per `classifySegPerClaim`). -/
def normalizeCertPerClaim (x : String) : Cert :=
  let raw := pyStrip x
  if raw = "" then ⟨"", "", "", "", ""⟩
  else
    let parts := certSplitParts raw
    let name := parts.headD raw
    let st := parts.tail.foldl classifySegPerClaim ⟨"", "", "", ""⟩
    { name := _clean_none name
      issuer := _clean_none st.issuer
      date := _clean_none st.date
      link := _clean_none st.link
      description := shorten_text (_clean_none st.desc) 160 }

/-- The amended classification step (C5): the issuer slot is claimed by
a segment that claimed neither the date slot nor the link slot and does
not contain `http://` or `https://` anywhere (case-insensitive),
regardless of whether it contains a year. -/
def classifySegAmended (st : CertSlots) (ptxt : String) : CertSlots :=
  match (if st.date = "" then searchYear ptxt else none) with
  | some y => { st with date := y }
  | none =>
    if st.link = "" ∧ startsWithHttp ptxt then { st with link := ptxt }
    else if st.issuer = "" ∧ ¬containsHttp ptxt then { st with issuer := ptxt }
    else { st with desc := joinDescSeg st.desc ptxt }

/-- Certification parsing of a raw string per the amended claim C5. -/
def normalizeCertAmended (x : String) : Cert :=
  let raw := pyStrip x
  if raw = "" then ⟨"", "", "", "", ""⟩
  else
    let parts := certSplitParts raw
    let name := parts.headD raw
    let st := parts.tail.foldl classifySegAmended ⟨"", "", "", ""⟩
    { name := _clean_none name
      issuer := _clean_none st.issuer
      date := _clean_none st.date
      link := _clean_none st.link
      description := shorten_text (_clean_none st.desc) 160 }

/-! ## Concrete fixtures used by witnesses and counterexamples -/

/-- The all-empty sanitized record. -/
def emptyRecord : Record :=
  { first_name := "", last_name := "", email := "", phone := ""
    location := "", summary := "", links := [], skills := []
    skills_row1 := none, skills_row2 := none, skills_row3 := none
    experience := [], projects := [], education := [], certifications := []
    publications := [], show_summary := false, section_order := [] }

/-- A baseline record with one experience entry. -/
def cexBaseline : RawRecord :=
  { emptyRaw with
    experience :=
      [{ emptyExp with title := "Engineer", company := "Acme"
                       bullets := ["Built X"] }] }

/-- A record whose size proxy is 2900 characters (long band). -/
def bigRaw : RawRecord :=
  { emptyRaw with summary := ⟨List.replicate 2900 'a'⟩ }

/-- A sanitized record with a whitespace-only skill entry. -/
def wsSkillRaw : RawRecord := { emptyRaw with skills := [" "] }

/-- A small well-formed record: skills that survive shortening and an
experience entry with both dates. -/
def c4WitRaw : RawRecord :=
  { emptyRaw with
    summary := "Engineer."
    skills := ["Python", "SQL"]
    experience :=
      [{ emptyExp with title := "Dev", company := "Acme"
                       start_date := "2020", end_date := "2024"
                       bullets := ["Did things"] }] }

/-! # Theorems -/

set_option maxRecDepth 1000000

/-! ## C8 — section-order enforcement -/

/-- C8: `enforce_section_order` is idempotent, and the attached
`section_order` contains only keys from the canonical set
{summary, education, projects, skills, certifications}. -/
theorem claim_C8_enforce_idempotent_and_canonical (r : Record) :
    enforce_section_order (enforce_section_order r) = enforce_section_order r
      ∧ ∀ k ∈ (enforce_section_order r).section_order,
          k ∈ (["summary", "education", "projects", "skills",
                "certifications"] : List String) := by
  refine ⟨rfl, ?_⟩
  intro k hk
  simpa [enforce_section_order, WANTED_SECTION_ORDER] using hk

/-! ## C9 — the working record after shrink pass 3 -/

/-- C9 fails as stated: after shrink pass 3 the loop re-enforces the
section order, and `enforce_section_order` recomputes `show_summary`
from the summary text — so a record with a non-empty summary has
`show_summary = true` on the next pass, not `false`. -/
theorem claim_C9_counterexample :
    (enforce_section_order (_apply_shrink_pass
        { emptyRecord with summary := "Led the ML team" } 3)).show_summary
      = true := by decide

/-- C9 (amended): after shrink pass 3 and the re-enforcement of section
order, the working record rendered on the next pass has empty
certifications and publications, and its `show_summary` flag equals
whether the summary text is non-empty (the enforcement step overrides
pass 3's hiding of the summary). -/
theorem claim_C9_pass3_next_record (w : Record) :
    (enforce_section_order (_apply_shrink_pass w 3)).certifications = []
      ∧ (enforce_section_order (_apply_shrink_pass w 3)).publications = []
      ∧ (enforce_section_order (_apply_shrink_pass w 3)).show_summary
          = decide (w.summary ≠ "") := by
  refine ⟨rfl, rfl, rfl⟩

/-! ## C2 — the merged skills policy -/

/-- C2 fails as stated: with a baseline of 4 skills and an optimized
list of 2, the optimized list is not shorter than half the baseline
(2 = 4/2), so the claim predicts the optimized list is kept — but the
source requires `len(opt) >= max(3, len(orig) // 2)`, which 2 fails, so
the baseline list is returned. -/
theorem claim_C2_counterexample :
    (merge_structured { emptyRaw with skills := ["a", "b", "c", "d"] }
        { emptyRaw with skills := ["x", "y"] }).skills
      ≠ skillsPerClaim { emptyRaw with skills := ["a", "b", "c", "d"] }
          { emptyRaw with skills := ["x", "y"] } := by decide

/-- C2 (amended): the merged skills list is the optimized record's
sanitized skills exactly when that list is non-empty and its length is
at least `max(3, ⌊baseline length / 2⌋)`; otherwise it is the baseline
record's sanitized skills. -/
theorem claim_C2_skills_policy (original optimized : RawRecord) :
    (merge_structured original optimized).skills =
      (if (sanitize_struct optimized).skills ≠ []
          ∧ max 3 ((sanitize_struct original).skills.length / 2)
              ≤ (sanitize_struct optimized).skills.length
       then (sanitize_struct optimized).skills
       else (sanitize_struct original).skills) := rfl

/-! ## C3 — no destructive experience merge -/

/-- C3: when the optimized record sanitizes to zero experience entries
and the baseline has at least one, the merged record's experience is
exactly the baseline's sanitized experience list (same entries, same
order, non-empty). -/
theorem claim_C3_no_destructive_merge (original optimized : RawRecord)
    (hopt : (sanitize_struct optimized).experience = [])
    (horig : (sanitize_struct original).experience ≠ []) :
    (merge_structured original optimized).experience
        = (sanitize_struct original).experience
      ∧ (merge_structured original optimized).experience ≠ [] := by
  have h1 : (merge_structured original optimized).experience
      = (sanitize_struct original).experience := by
    simp [merge_structured, hopt]
  exact ⟨h1, h1 ▸ horig⟩

/-- Witness for C3 at a concrete baseline/optimized pair. -/
theorem claim_C3_no_destructive_merge_witness :
    (sanitize_struct emptyRaw).experience = []
      ∧ (sanitize_struct cexBaseline).experience ≠ []
      ∧ (merge_structured cexBaseline emptyRaw).experience
          = (sanitize_struct cexBaseline).experience :=
  ⟨by decide, by decide,
    (claim_C3_no_destructive_merge cexBaseline emptyRaw (by decide)
      (by decide)).1⟩

/-! ## C5 — the certification string parser -/

/-- C5 fails in its general classification rule: in
`"A | 2023 | 2019"` the segment `"2019"` contains a year, so under the
claim's rules (date already claimed, not a link, "a segment with
neither claims the issuer slot") it must accumulate into the
description — but the source's issuer guard only excludes segments
containing `http(s)://`, so `"2019"` claims the issuer slot. -/
theorem claim_C5_counterexample :
    normalize_cert_item (.inl "A | 2023 | 2019")
      ≠ normalizeCertPerClaim "A | 2023 | 2019" := by decide

/-- C5 (amended): the concrete example normalizes as claimed, and in
general a raw certification string is parsed by splitting on the first
preferred separator, taking the first segment as the name, and
classifying the remaining segments in order — a year claims the date
slot once; a segment beginning `http(s)://` claims the link slot once;
a segment not containing `http(s)://` anywhere claims the issuer slot
once (regardless of year content); everything else accumulates into the
description joined by `"; "` — with none-like tokens cleared and the
description capped at 160 characters. -/
theorem claim_C5_cert_normalizer (x : String) :
    normalize_cert_item (.inl
          "AWS Certified | Amazon | 2023 | https://aws.example/cert")
        = ⟨"AWS Certified", "Amazon", "2023", "https://aws.example/cert", ""⟩
      ∧ normalize_cert_item (.inl x) = normalizeCertAmended x :=
  ⟨by decide, rfl⟩

/-! ## C10 — a missing page marker is read as one page -/

/-- C10: when the compiler subprocess exits successfully but its stdout
contains no `(N page(s))` marker, `_compile_with_page_count` reports a
page count of 1, and the fit loop accepts the produced document as a
one-page result on that very pass. -/
theorem claim_C10_missing_marker_defaults_to_one
    (run : String → PdflatexRun) (render : Record → String) (data : Record)
    (s : String) (b : Bytes)
    (hrun : run (render (enforce_section_order data)) = ⟨0, s, some b⟩)
    (hm : findPageMarker s = none) :
    _compile_with_page_count run (render (enforce_section_order data))
        = .ok (b, 1)
      ∧ render_and_compile_one_page render (oracleOfRun run) data
          = .ok b := by
  constructor
  · simp [_compile_with_page_count, hrun, pages_from_stdout, hm]
  · simp [render_and_compile_one_page, standardPasses, oracleOfRun, hrun,
      pages_from_stdout, hm]

/-- Witness for C10 with a concrete successful run whose stdout has no
marker. -/
theorem claim_C10_missing_marker_witness :
    findPageMarker "all good" = none
      ∧ _compile_with_page_count
          (fun _ => (⟨0, "all good", some [9]⟩ : PdflatexRun))
          ((fun _ => "tex") (enforce_section_order emptyRecord))
          = .ok ([9], 1) :=
  ⟨by decide,
    (claim_C10_missing_marker_defaults_to_one
      (fun _ => (⟨0, "all good", some [9]⟩ : PdflatexRun)) (fun _ => "tex")
      emptyRecord "all good" [9] rfl (by decide)).1⟩

/-! ## C1 — the fit loop is bounded and never accepts a long document -/

/-- The standard pass loop performs at most one compile per listed
pass. -/
theorem standardPasses_count_le (render : Record → String)
    (compile : String → Bytes × Nat) (ps : List Nat) (w : Record) :
    (standardPasses render compile ps w).2 ≤ ps.length := by
  induction ps generalizing w with
  | nil => simp [standardPasses]
  | cons p rest ih =>
    simp only [standardPasses, List.length_cons]
    split
    · exact Nat.succ_le_succ (Nat.zero_le _)
    · exact Nat.succ_le_succ (ih _)

/-- The squeeze loop performs at most `n` compiles. -/
theorem squeezeLoop_count_le (render : Record → String)
    (compile : String → Bytes × Nat) (n : Nat) (w : Record) :
    (squeezeLoop render compile n w).2 ≤ n := by
  induction n generalizing w with
  | zero => simp [squeezeLoop]
  | succ n ih =>
    simp only [squeezeLoop]
    split
    · exact Nat.succ_le_succ (Nat.zero_le _)
    · exact Nat.succ_le_succ (ih _)

/-- Bytes accepted by the standard pass loop come from a compile whose
measured page count was at most 1. -/
theorem standardPasses_accepts_measured (render : Record → String)
    (compile : String → Bytes × Nat) (ps : List Nat) (w : Record)
    (pdf : Bytes) (h : (standardPasses render compile ps w).1 = .inr pdf) :
    ∃ w', (compile (render w')).2 ≤ 1 ∧ (compile (render w')).1 = pdf := by
  induction ps generalizing w with
  | nil => simp [standardPasses] at h
  | cons p rest ih =>
    simp only [standardPasses] at h
    by_cases hp : (compile (render w)).2 ≤ 1
    · refine ⟨w, hp, ?_⟩
      simp [hp] at h
      exact h
    · simp [hp] at h
      exact ih _ h

/-- Bytes accepted by the squeeze loop come from a compile whose
measured page count was at most 1. -/
theorem squeezeLoop_accepts_measured (render : Record → String)
    (compile : String → Bytes × Nat) (n : Nat) (w : Record) (pdf : Bytes)
    (h : (squeezeLoop render compile n w).1 = some pdf) :
    ∃ w', (compile (render w')).2 ≤ 1 ∧ (compile (render w')).1 = pdf := by
  induction n generalizing w with
  | zero => simp [squeezeLoop] at h
  | succ n ih =>
    simp only [squeezeLoop] at h
    by_cases hp : (compile (render (_ultra_squeeze_to_one_page w))).2 ≤ 1
    · refine ⟨_ultra_squeeze_to_one_page w, hp, ?_⟩
      simp [hp] at h
      exact h
    · simp [hp] at h
      exact ih _ h

/-- C1: the fit loop performs at most 4 + 3 = 7 compile attempts; if it
returns document bytes, they come from a compile whose measured page
count was at most 1; if it raises, the error is exactly the HTTP 400
fitting failure. -/
theorem claim_C1_fit_loop_bounded (render : Record → String)
    (compile : String → Bytes × Nat) (data : Record) :
    fitCompileCount render compile data ≤ 7
      ∧ (∀ pdf,
          render_and_compile_one_page render compile data = .ok pdf →
            ∃ w, (compile (render w)).2 ≤ 1 ∧ (compile (render w)).1 = pdf)
      ∧ (∀ e,
          render_and_compile_one_page render compile data = .error e →
            e = fittingFailure) := by
  have h4 := standardPasses_count_le render compile [1, 2, 3, 4]
    (enforce_section_order data)
  simp only [List.length_cons, List.length_nil] at h4
  refine ⟨?_, ?_, ?_⟩
  · simp only [fitCompileCount]
    cases hs : (standardPasses render compile [1, 2, 3, 4]
        (enforce_section_order data)).1 with
    | inl w =>
      have h3 := squeezeLoop_count_le render compile 3 w
      dsimp only
      omega
    | inr pdf =>
      dsimp only
      omega
  · intro pdf h
    simp only [render_and_compile_one_page] at h
    cases hs : (standardPasses render compile [1, 2, 3, 4]
        (enforce_section_order data)).1 with
    | inr pdf' =>
      rw [hs] at h
      simp only [Except.ok.injEq] at h
      subst h
      exact standardPasses_accepts_measured render compile _ _ _ hs
    | inl w =>
      rw [hs] at h
      dsimp only at h
      cases hq : (squeezeLoop render compile 3 w).1 with
      | some pdf' =>
        rw [hq] at h
        simp only [Except.ok.injEq] at h
        subst h
        exact squeezeLoop_accepts_measured render compile _ _ _ hq
      | none => rw [hq] at h; exact absurd h (by simp)
  · intro e h
    simp only [render_and_compile_one_page] at h
    cases hs : (standardPasses render compile [1, 2, 3, 4]
        (enforce_section_order data)).1 with
    | inr pdf' => rw [hs] at h; exact absurd h (by simp)
    | inl w =>
      rw [hs] at h
      dsimp only at h
      cases hq : (squeezeLoop render compile 3 w).1 with
      | some pdf' => rw [hq] at h; exact absurd h (by simp)
      | none =>
        rw [hq] at h
        simp only [Except.error.injEq] at h
        exact h.symm


/-- Witness for C1 with a compiler oracle that reports one page. -/
theorem claim_C1_fit_loop_bounded_witness :
    render_and_compile_one_page (fun _ => "tex")
        (fun _ => (([42] : Bytes), 1)) emptyRecord = .ok [42]
      ∧ ∃ w, ((fun _ : String => (([42] : Bytes), 1))
            ((fun _ : Record => "tex") w)).2 ≤ 1
          ∧ ((fun _ : String => (([42] : Bytes), 1))
              ((fun _ : Record => "tex") w)).1 = [42] :=
  ⟨rfl,
    (claim_C1_fit_loop_bounded (fun _ => "tex") (fun _ => ([42], 1))
      emptyRecord).2.1 [42] rfl⟩

/-! ## C6 — certification dedup-key uniqueness after compression -/

/-- The clean/skip/dedup loop produces certifications with pairwise
distinct keys, none of which was in `seen`. -/
theorem dedupCerts_distinct (l : List Cert)
    (seen : List (String × String × String × String)) :
    (dedupCerts l seen).Pairwise (fun a b => certKey a ≠ certKey b)
      ∧ ∀ c ∈ dedupCerts l seen, certKey c ∉ seen := by
  induction l generalizing seen with
  | nil => simp [dedupCerts]
  | cons c rest ih =>
    simp only [dedupCerts]
    by_cases he : certIsEmpty (cleanCert c)
    · simpa [he] using ih seen
    · by_cases hm : certKey (cleanCert c) ∈ seen
      · simpa [he, hm] using ih seen
      · simp only [he, hm, if_false, ite_false]
        have ihx := ih (certKey (cleanCert c) :: seen)
        refine ⟨List.pairwise_cons.2 ⟨?_, ihx.1⟩, ?_⟩
        · intro b hb
          have := ihx.2 b hb
          simp only [List.mem_cons, not_or] at this
          exact fun hcb => this.1 hcb.symm
        · intro d hd
          rcases List.mem_cons.1 hd with hdc | hdrest
          · subst hdc; exact hm
          · have := ihx.2 d hdrest
            simp only [List.mem_cons, not_or] at this
            exact this.2

/-- C6: for every input record — duplicates included — the compressed
record's certifications contain at most one entry per dedup key
(name lowercased, issuer lowercased, date, link). -/
theorem claim_C6_cert_dedup_unique (data : RawRecord) :
    ((compress_payload_for_one_page data).certifications).Pairwise
      (fun a b => certKey a ≠ certKey b) := by
  have h := (dedupCerts_distinct
    (((sanitize_struct data).certifications).map normalizeCertDict) []).1
  simp only [compress_payload_for_one_page, compressShape]
  exact List.Pairwise.sublist (List.take_sublist _ _) h

/-! ## C7 — long-band caps -/

/-- `limit_bullets`'s worker emits at most `maxN - cnt` bullets. -/
theorem limitBulletsGo_length_le (maxN : Nat) (l : List String) (cnt : Nat)
    (h : cnt < maxN) : (limitBulletsGo maxN l cnt).length ≤ maxN - cnt := by
  induction l generalizing cnt with
  | nil => simp [limitBulletsGo]
  | cons b rest ih =>
    simp only [limitBulletsGo]
    by_cases hs : pyStrip b = ""
    · have hc : ¬ maxN ≤ cnt := by omega
      simpa [hs, hc] using ih cnt h
    · simp only [hs, ite_false, if_neg hs]
      by_cases hc : maxN ≤ cnt + 1
      · simp only [hc, ite_true, if_pos hc, List.length_cons,
          List.length_nil]
        omega
      · simp only [hc, ite_false, if_neg hc, List.length_cons]
        have := ih (cnt + 1) (by omega)
        omega

/-- `limit_bullets` caps list length at `maxN` (for a positive cap). -/
theorem limit_bullets_length_le (items : List String) (maxN : Nat)
    (h : 0 < maxN) : (limit_bullets items maxN).length ≤ maxN := by
  have := limitBulletsGo_length_le maxN items 0 h
  simpa [limit_bullets] using this

/-- The band parameters chosen for a long record. -/
theorem bandParams_long (n : Nat) (h : LONG_MIN ≤ n) :
    bandParams n = ⟨3, 2, 2, 5, 2, 2, 200, 160⟩ := by
  have h1 : ¬ n < SHORT_MAX := by
    simp only [SHORT_MAX, LONG_MIN] at *
    omega
  unfold bandParams
  rw [if_neg h1, if_pos h]
  decide

/-- C7: a record whose sanitized size proxy is at least 2900 characters
(the long band) compresses to at most 2 bullets per experience and
project entry, at most 3 experience entries and at most 2 project
entries. -/
theorem claim_C7_long_band_caps (data : RawRecord)
    (h : LONG_MIN ≤ _approx_char_count (sanitize_struct data)) :
    (∀ e ∈ (compress_payload_for_one_page data).experience,
        e.bullets.length ≤ 2)
      ∧ (∀ p ∈ (compress_payload_for_one_page data).projects,
          p.bullets.length ≤ 2)
      ∧ (compress_payload_for_one_page data).experience.length ≤ 3
      ∧ (compress_payload_for_one_page data).projects.length ≤ 2 := by
  have hb := bandParams_long _ h
  simp only [compress_payload_for_one_page, compressShape, hb]
  refine ⟨?_, ?_, ?_, ?_⟩
  · intro e he
    have he' := List.Sublist.mem he (List.take_sublist _ _)
    obtain ⟨x, -, rfl⟩ := List.mem_map.1 he'
    simpa [shapeExpEntry] using
      limit_bullets_length_le (normalizeDatesExp x).bullets 2 (by omega)
  · intro p hp
    have hp' := List.Sublist.mem hp (List.take_sublist _ _)
    obtain ⟨x, -, rfl⟩ := List.mem_map.1 hp'
    simpa [shapeProjEntry] using
      limit_bullets_length_le (normalizeDatesProj x).bullets 2 (by omega)
  · exact List.length_take_le _ _
  · exact List.length_take_le _ _

/-- The size proxy of the long-band fixture. -/
theorem bigRaw_size : _approx_char_count (sanitize_struct bigRaw) = 2900 := by
  simp [bigRaw, emptyRaw, sanitize_struct, _approx_char_count, sumLens,
    String.length]

/-- Witness for C7 at a record whose size proxy is exactly 2900. -/
theorem claim_C7_long_band_caps_witness :
    LONG_MIN ≤ _approx_char_count (sanitize_struct bigRaw)
      ∧ (compress_payload_for_one_page bigRaw).experience.length ≤ 3 :=
  ⟨by rw [bigRaw_size]; norm_num [LONG_MIN],
    (claim_C7_long_band_caps bigRaw
      (by rw [bigRaw_size]; norm_num [LONG_MIN])).2.2.1⟩

/-! ## Text-normalization lemmas (towards C4)

`shorten_text` outputs are whitespace-normal and strip-fixed; applying
the same transformations again with equal-or-looser limits is the
identity.  These facts drive the idempotence analysis of the one-page
compressor. -/

/-- Drop the head of a whitespace-normal list. -/
theorem wsNormB_tail {c : Char} {l : List Char}
    (h : wsNormB (c :: l) = true) : wsNormB l = true := by
  cases l with
  | nil => rfl
  | cons c2 t =>
    simp only [wsNormB, Bool.and_eq_true] at h
    exact h.2

/-- `collapseGo true` never puts a whitespace character first. -/
theorem collapseGo_true_shape (l : List Char) :
    collapseGo true l = []
      ∨ ∃ c t, collapseGo true l = c :: t ∧ c.isWhitespace = false := by
  induction l with
  | nil => exact Or.inl rfl
  | cons c rest ih =>
    by_cases hc : c.isWhitespace
    · simpa [collapseGo, hc] using ih
    · exact Or.inr ⟨c, collapseGo false rest, by simp [collapseGo, hc],
        by simpa using hc⟩

theorem collapseGo_ne_nil {l : List Char}
    (h : ∃ x ∈ l, x.isWhitespace = false) (b : Bool) :
    collapseGo b l ≠ [] := by
  induction l generalizing b with
  | nil => simp at h
  | cons c rest ih =>
    obtain ⟨x, hx, hxw⟩ := h
    by_cases hc : c.isWhitespace
    · have hxr : x ∈ rest := by
        rcases List.mem_cons.1 hx with rfl | hr
        · simp [hc] at hxw
        · exact hr
      cases b with
      | true => simpa [collapseGo, hc] using ih ⟨x, hxr, hxw⟩ true
      | false => simp [collapseGo, hc]
    · simp [collapseGo, hc]

theorem wsNormB_collapseGo (l : List Char) (b : Bool) :
    wsNormB (collapseGo b l) = true := by
  induction l generalizing b with
  | nil => rfl
  | cons c rest ih =>
    by_cases hc : c.isWhitespace
    · cases b with
      | true => simpa [collapseGo, hc] using ih true
      | false =>
        have hx : collapseGo false (c :: rest) = ' ' :: collapseGo true rest := by
          simp [collapseGo, hc]
        rw [hx]
        rcases collapseGo_true_shape rest with h0 | ⟨d, t, heq, hd⟩
        · rw [h0]; rfl
        · rw [heq]
          simp only [wsNormB, Bool.and_eq_true]
          refine ⟨⟨by decide, by simp [hd]⟩, ?_⟩
          have := ih true
          rwa [heq] at this
    · have hx : collapseGo b (c :: rest) = c :: collapseGo false rest := by
        simp [collapseGo, hc]
      rw [hx]
      cases hrest : collapseGo false rest with
      | nil => simp [wsNormB, hc]
      | cons d t =>
        simp only [wsNormB, Bool.and_eq_true]
        refine ⟨⟨by simp [hc], by simp [hc]⟩, ?_⟩
        have := ih false
        rwa [hrest] at this

theorem collapseGo_eq_self {l : List Char} (h : wsNormB l = true) :
    collapseGo false l = l := by
  induction l with
  | nil => rfl
  | cons c rest ih =>
    have htail := wsNormB_tail h
    by_cases hc : c.isWhitespace
    · have hsp : c = ' ' := by
        cases rest with
        | nil =>
          simp only [wsNormB] at h
          simpa [hc] using h
        | cons c2 t =>
          simp only [wsNormB, Bool.and_eq_true] at h
          simpa [hc] using h.1.1
      have hx : collapseGo false (c :: rest) = ' ' :: collapseGo true rest := by
        simp [collapseGo, hc]
      rw [hx, hsp]
      cases rest with
      | nil => rfl
      | cons c2 t =>
        have hc2 : c2.isWhitespace = false := by
          simp only [wsNormB, Bool.and_eq_true] at h
          simpa [hc] using h.1.2
        have h2 : collapseGo true (c2 :: t) = collapseGo false (c2 :: t) := by
          simp [collapseGo, hc2]
        rw [h2, ih htail]
    · have hx : collapseGo false (c :: rest) = c :: collapseGo false rest := by
        simp [collapseGo, hc]
      rw [hx, ih htail]

theorem length_collapseGo_le (l : List Char) (b : Bool) :
    (collapseGo b l).length ≤ l.length := by
  induction l generalizing b with
  | nil => simp [collapseGo]
  | cons c rest ih =>
    by_cases hc : c.isWhitespace
    · cases b with
      | true =>
        have hx : collapseGo true (c :: rest) = collapseGo true rest := by
          simp [collapseGo, hc]
        rw [hx]
        exact Nat.le_succ_of_le (ih true)
      | false =>
        have hx : collapseGo false (c :: rest)
            = ' ' :: collapseGo true rest := by
          simp [collapseGo, hc]
        rw [hx]
        exact Nat.succ_le_succ (ih true)
    · have hx : collapseGo b (c :: rest) = c :: collapseGo false rest := by
        simp [collapseGo, hc]
      rw [hx]
      exact Nat.succ_le_succ (ih false)

theorem space_mem_collapseGo {l : List Char}
    (h : ∃ c ∈ l, c.isWhitespace = true) : ' ' ∈ collapseGo false l := by
  induction l with
  | nil => simp at h
  | cons c rest ih =>
    obtain ⟨x, hx, hxw⟩ := h
    by_cases hc : c.isWhitespace
    · simp [collapseGo, hc]
    · have hxr : x ∈ rest := by
        rcases List.mem_cons.1 hx with rfl | hr
        · simp [hxw] at hc
        · exact hr
      have hx2 : collapseGo false (c :: rest) = c :: collapseGo false rest := by
        simp [collapseGo, hc]
      rw [hx2]
      exact List.mem_cons_of_mem c (ih ⟨x, hxr, hxw⟩)

theorem wsNormB_of_no_ws {l : List Char}
    (h : ∀ c ∈ l, c.isWhitespace = false) : wsNormB l = true := by
  induction l with
  | nil => rfl
  | cons c rest ih =>
    have hc := h c (List.mem_cons_self c rest)
    have htail := ih fun d hd => h d (List.mem_cons_of_mem c hd)
    cases rest with
    | nil => simp [wsNormB, hc]
    | cons c2 t =>
      simp only [wsNormB, Bool.and_eq_true]
      exact ⟨⟨by simp [hc], by simp [hc]⟩, htail⟩

/-- One-step unfolding of `rstripChars`. -/
theorem rstripChars_cons (c : Char) (l : List Char) :
    rstripChars (c :: l)
      = if rstripChars l = [] ∧ c.isWhitespace then []
        else c :: rstripChars l := rfl

theorem length_rstripChars_le (l : List Char) :
    (rstripChars l).length ≤ l.length := by
  induction l with
  | nil => simp [rstripChars]
  | cons c rest ih =>
    rw [rstripChars_cons]
    split
    · simp
    · simpa using Nat.succ_le_succ ih

theorem rstripChars_eq_nil_or_head (c : Char) (t : List Char) :
    rstripChars (c :: t) = []
      ∨ ∃ t', rstripChars (c :: t) = c :: t' := by
  rw [rstripChars_cons]
  split
  · exact Or.inl rfl
  · exact Or.inr ⟨rstripChars t, rfl⟩

theorem rstripChars_idem (l : List Char) :
    rstripChars (rstripChars l) = rstripChars l := by
  induction l with
  | nil => rfl
  | cons c rest ih =>
    by_cases h : rstripChars rest = [] ∧ c.isWhitespace
    · rw [rstripChars_cons, if_pos h]
      rfl
    · rw [rstripChars_cons, if_neg h, rstripChars_cons, ih, if_neg h]

theorem rstripChars_append_nonWs {c : Char} (hc : c.isWhitespace = false)
    (l : List Char) : rstripChars (l ++ [c]) = l ++ [c] := by
  induction l with
  | nil =>
    rw [List.nil_append, rstripChars_cons, if_neg]
    · rfl
    · simp [hc]
  | cons d t ih =>
    rw [List.cons_append, rstripChars_cons, ih, if_neg]
    intro hx
    exact absurd hx.1 (by simp)

/-- Destruct whitespace-normality of a cons cell. -/
theorem wsNormB_props {c : Char} {l : List Char}
    (h : wsNormB (c :: l) = true) :
    (c.isWhitespace = true → c = ' ') ∧ wsNormB l = true
      ∧ (∀ c2 t, l = c2 :: t → c.isWhitespace = true
          → c2.isWhitespace = false) := by
  cases l with
  | nil =>
    refine ⟨?_, rfl, by intro c2 t hx; cases hx⟩
    intro hw
    simp only [wsNormB] at h
    rcases Bool.or_eq_true_iff.1 h with h1 | h1
    · simp [hw] at h1
    · simpa using h1
  | cons c2 t =>
    simp only [wsNormB, Bool.and_eq_true] at h
    refine ⟨?_, h.2, ?_⟩
    · intro hw
      rcases Bool.or_eq_true_iff.1 h.1.1 with h1 | h1
      · simp [hw] at h1
      · simpa using h1
    · intro c2' t' hx hw
      cases hx
      have := h.1.2
      simp only [Bool.not_eq_eq_eq_not, Bool.not_true, Bool.and_eq_false_iff]
        at this
      rcases this with h1 | h1
      · rw [hw] at h1; cases h1
      · exact h1

/-- Build whitespace-normality of a cons cell. -/
theorem wsNormB_cons_of {c : Char} {l : List Char}
    (h1 : c.isWhitespace = true → c = ' ') (h2 : wsNormB l = true)
    (h3 : ∀ c2 t, l = c2 :: t → c.isWhitespace = true
        → c2.isWhitespace = false) :
    wsNormB (c :: l) = true := by
  cases l with
  | nil =>
    simp only [wsNormB]
    by_cases hw : c.isWhitespace
    · simp [h1 hw]
    · simp [hw]
  | cons c2 t =>
    simp only [wsNormB, Bool.and_eq_true]
    refine ⟨⟨?_, ?_⟩, h2⟩
    · by_cases hw : c.isWhitespace
      · simp [h1 hw]
      · simp [hw]
    · by_cases hw : c.isWhitespace
      · simp [h3 c2 t rfl hw]
      · simp [hw]

theorem wsNormB_rstripChars {l : List Char} (h : wsNormB l = true) :
    wsNormB (rstripChars l) = true := by
  induction l with
  | nil => rfl
  | cons c rest ih =>
    obtain ⟨hhead, htail, hpair⟩ := wsNormB_props h
    by_cases hb : rstripChars rest = [] ∧ c.isWhitespace
    · rw [rstripChars_cons, if_pos hb]
      rfl
    · rw [rstripChars_cons, if_neg hb]
      refine wsNormB_cons_of hhead (ih htail) ?_
      intro d t' hr hw
      cases rest with
      | nil => simp [rstripChars] at hr
      | cons r0 r1 =>
        have hd : d = r0 := by
          rcases rstripChars_eq_nil_or_head r0 r1 with h0 | ⟨t'', h2⟩
          · rw [h0] at hr; cases hr
          · rw [h2] at hr
            exact (List.cons.injEq _ _ _ _ ▸ hr).1.symm
        subst hd
        exact hpair d r1 rfl hw

theorem rstripChars_eq_self_of_getLast {l : List Char} {c : Char}
    (h : l.getLast? = some c) (hc : c.isWhitespace = false) :
    rstripChars l = l := by
  induction l with
  | nil => cases h
  | cons d t ih =>
    cases t with
    | nil =>
      have hdc : d = c := by simpa using h
      subst hdc
      rw [rstripChars_cons, if_neg]
      · rfl
      · intro hx
        exact absurd hx.2 (by simp [hc])
    | cons e t2 =>
      have h' : (e :: t2).getLast? = some c := by
        simpa [List.getLast?_cons_cons] using h
      have hr := ih h'
      rw [rstripChars_cons, hr, if_neg]
      intro hx
      exact absurd hx.1 (by simp)

theorem rstripChars_length_lt_of_getLast_ws {l : List Char} {c : Char}
    (h : l.getLast? = some c) (hc : c.isWhitespace = true) :
    (rstripChars l).length < l.length := by
  induction l with
  | nil => cases h
  | cons d t ih =>
    cases t with
    | nil =>
      have hdc : d = c := by simpa using h
      subst hdc
      rw [rstripChars_cons]
      simp [hc, rstripChars]
    | cons e t2 =>
      have h' : (e :: t2).getLast? = some c := by
        simpa [List.getLast?_cons_cons] using h
      have hlt := ih h'
      rw [rstripChars_cons]
      split
      · simp
      · simp only [List.length_cons] at hlt ⊢
        omega

theorem dropWhile_shape (p : Char → Bool) (l : List Char) :
    l.dropWhile p = []
      ∨ ∃ c t, l.dropWhile p = c :: t ∧ p c = false := by
  induction l with
  | nil => exact Or.inl rfl
  | cons a t ih =>
    by_cases hp : p a
    · simpa [List.dropWhile_cons, hp] using ih
    · exact Or.inr ⟨a, t, by simp [List.dropWhile_cons, hp],
        by simpa using hp⟩

theorem wsNormB_dropWhile (p : Char → Bool) {l : List Char}
    (h : wsNormB l = true) : wsNormB (l.dropWhile p) = true := by
  induction l with
  | nil => rfl
  | cons a t ih =>
    by_cases hp : p a
    · simp only [List.dropWhile_cons, hp, if_true, ite_true]
      exact ih (wsNormB_tail h)
    · simpa [List.dropWhile_cons, hp] using h

theorem dropWhile_eq_self_of_length {p : Char → Bool} {l : List Char}
    (h : (l.dropWhile p).length = l.length) : l.dropWhile p = l := by
  induction l with
  | nil => rfl
  | cons a t ih =>
    by_cases hp : p a
    · exfalso
      have hle := (List.dropWhile_sublist (l := t) p).length_le
      rw [List.dropWhile_cons, if_pos hp] at h
      simp only [List.length_cons] at h
      omega
    · rw [List.dropWhile_cons, if_neg hp]

theorem length_stripChars_le (l : List Char) :
    (stripChars l).length ≤ l.length :=
  le_trans (length_rstripChars_le _)
    (List.dropWhile_sublist Char.isWhitespace).length_le

theorem stripChars_head_shape (l : List Char) :
    stripChars l = []
      ∨ ∃ c t, stripChars l = c :: t ∧ c.isWhitespace = false := by
  unfold stripChars lstripChars
  rcases dropWhile_shape Char.isWhitespace l with h0 | ⟨c, t, heq, hc⟩
  · rw [h0]; exact Or.inl rfl
  · rw [heq]
    rcases rstripChars_eq_nil_or_head c t with h1 | ⟨t', h1⟩
    · rw [h1]; exact Or.inl rfl
    · rw [h1]; exact Or.inr ⟨c, t', rfl, hc⟩

theorem wsNormB_stripChars {l : List Char} (h : wsNormB l = true) :
    wsNormB (stripChars l) = true :=
  wsNormB_rstripChars (wsNormB_dropWhile _ h)

theorem stripChars_idem (l : List Char) :
    stripChars (stripChars l) = stripChars l := by
  rcases stripChars_head_shape l with h0 | ⟨c, t, heq, hc⟩
  · rw [h0]; rfl
  · rw [heq]
    unfold stripChars lstripChars
    rw [List.dropWhile_cons, if_neg (by simp [hc])]
    have : rstripChars (c :: t) = c :: t := by
      have hx : rstripChars (stripChars l) = stripChars l := by
        unfold stripChars
        exact rstripChars_idem _
      rwa [heq] at hx
    exact this

theorem stripFix_dropWhile {l : List Char} (h : stripChars l = l) :
    l.dropWhile Char.isWhitespace = l := by
  apply dropWhile_eq_self_of_length
  have h1 := length_rstripChars_le (l.dropWhile Char.isWhitespace)
  have h2 := (List.dropWhile_sublist (l := l) Char.isWhitespace).length_le
  have h3 : (stripChars l).length = l.length := by rw [h]
  unfold stripChars lstripChars at h3
  omega

theorem stripFix_rstrip {l : List Char} (h : stripChars l = l) :
    rstripChars l = l := by
  have hd := stripFix_dropWhile h
  unfold stripChars lstripChars at h
  rwa [hd] at h

theorem stripFix_getLast_nonWs {l : List Char} {c : Char}
    (h : stripChars l = l) (hl : l.getLast? = some c) :
    c.isWhitespace = false := by
  by_contra hw
  have hw' : c.isWhitespace = true := by simpa using hw
  have hlt := rstripChars_length_lt_of_getLast_ws hl hw'
  rw [stripFix_rstrip h] at hlt
  omega

theorem stripFix_head_nonWs {l : List Char} {c : Char} {t : List Char}
    (h : stripChars l = l) (he : l = c :: t) : c.isWhitespace = false := by
  have hd := stripFix_dropWhile h
  rw [he, List.dropWhile_cons] at hd
  by_cases hc : c.isWhitespace
  · exfalso
    rw [if_pos hc] at hd
    have := (List.dropWhile_sublist (l := t) Char.isWhitespace).length_le
    have := congrArg List.length hd
    simp only [List.length_cons] at this
    omega
  · simpa using hc

theorem getLast?_collapseGo {l : List Char} {c : Char}
    (h : l.getLast? = some c) (hc : c.isWhitespace = false) (b : Bool) :
    (collapseGo b l).getLast? = some c := by
  induction l generalizing b with
  | nil => cases h
  | cons a rest ih =>
    cases rest with
    | nil =>
      have hac : a = c := by simpa using h
      subst hac
      have hx : collapseGo b [a] = [a] := by simp [collapseGo, hc]
      rw [hx]
      simp
    | cons r rs =>
      have h' : (r :: rs).getLast? = some c := by
        simpa [List.getLast?_cons_cons] using h
      have hmem : ∃ x ∈ r :: rs, x.isWhitespace = false :=
        ⟨c, List.mem_of_getLast?_eq_some h', hc⟩
      by_cases ha : a.isWhitespace
      · cases b with
        | true =>
          have hx : collapseGo true (a :: r :: rs)
              = collapseGo true (r :: rs) := by simp [collapseGo, ha]
          rw [hx]
          exact ih h' true
        | false =>
          have hx : collapseGo false (a :: r :: rs)
              = ' ' :: collapseGo true (r :: rs) := by simp [collapseGo, ha]
          rw [hx]
          cases hX : collapseGo true (r :: rs) with
          | nil => exact absurd hX (collapseGo_ne_nil hmem true)
          | cons x xs =>
            rw [List.getLast?_cons_cons]
            have := ih h' true
            rwa [hX] at this
      · have hx : collapseGo b (a :: r :: rs)
            = a :: collapseGo false (r :: rs) := by simp [collapseGo, ha]
        rw [hx]
        cases hX : collapseGo false (r :: rs) with
        | nil => exact absurd hX (collapseGo_ne_nil hmem false)
        | cons x xs =>
          rw [List.getLast?_cons_cons]
          have := ih h' false
          rwa [hX] at this

theorem strip_collapse_of_stripFix {l : List Char}
    (h : stripChars l = l) :
    stripChars (collapseChars l) = collapseChars l := by
  cases l with
  | nil => rfl
  | cons a t =>
    have ha : a.isWhitespace = false := stripFix_head_nonWs h rfl
    have hcol : collapseChars (a :: t) = a :: collapseGo false t := by
      simp [collapseChars, collapseGo, ha]
    obtain ⟨c, hgl⟩ : ∃ c, (a :: t).getLast? = some c :=
      ⟨(a :: t).getLast (by simp), List.getLast?_eq_getLast _ _⟩
    have hcn := stripFix_getLast_nonWs h hgl
    have hkeep := getLast?_collapseGo hgl hcn false
    unfold stripChars lstripChars
    rw [hcol, List.dropWhile_cons, if_neg (by simp [ha])]
    have hkeep' : (a :: collapseGo false t).getLast? = some c := by
      have : collapseGo false (a :: t) = a :: collapseGo false t := by
        simp [collapseGo, ha]
      rwa [this] at hkeep
    exact rstripChars_eq_self_of_getLast hkeep' hcn

theorem wsNormB_take (n : Nat) {l : List Char} (h : wsNormB l = true) :
    wsNormB (l.take n) = true := by
  induction l generalizing n with
  | nil => simp [List.take_nil]; rfl
  | cons c rest ih =>
    cases n with
    | zero => rfl
    | succ n =>
      obtain ⟨hhead, htail, hpair⟩ := wsNormB_props h
      rw [List.take_succ_cons]
      refine wsNormB_cons_of hhead (ih n htail) ?_
      intro c2 t' ht hw
      cases rest with
      | nil => simp at ht
      | cons r0 r1 =>
        cases n with
        | zero => simp at ht
        | succ m =>
          rw [List.take_succ_cons] at ht
          have : c2 = r0 := (List.cons.injEq _ _ _ _ ▸ ht).1.symm
          subst this
          exact hpair c2 r1 rfl hw

theorem wsNormB_append_nonWs {c : Char} {l : List Char}
    (h : wsNormB l = true) (hc : c.isWhitespace = false) :
    wsNormB (l ++ [c]) = true := by
  induction l with
  | nil => simpa [wsNormB] using Or.inl hc
  | cons d t ih =>
    obtain ⟨hhead, htail, hpair⟩ := wsNormB_props h
    rw [List.cons_append]
    refine wsNormB_cons_of hhead (ih htail) ?_
    intro c2 t' ht hw
    cases t with
    | nil =>
      simp only [List.nil_append] at ht
      have : c2 = c := (List.cons.injEq _ _ _ _ ▸ ht).1.symm
      subst this
      exact hc
    | cons e t2 =>
      rw [List.cons_append] at ht
      have : c2 = e := (List.cons.injEq _ _ _ _ ▸ ht).1.symm
      subst this
      exact hpair c2 t2 rfl hw

/-- The output of `shortenChars` is whitespace-normal. -/
theorem shortenChars_wsNormB (m : Nat) (t : List Char) :
    wsNormB (shortenChars m t) = true := by
  simp only [shortenChars]
  have hs : wsNormB (stripChars (collapseChars t)) = true :=
    wsNormB_stripChars (wsNormB_collapseGo t false)
  split
  · exact hs
  · exact wsNormB_append_nonWs
      (wsNormB_rstripChars (wsNormB_take _ hs)) (by decide)

/-- The output of `shortenChars` is strip-fixed. -/
theorem shortenChars_stripFix (m : Nat) (t : List Char) :
    stripChars (shortenChars m t) = shortenChars m t := by
  simp only [shortenChars]
  split
  · exact stripChars_idem _
  · set s := stripChars (collapseChars t) with hs
    have hfix : stripChars s = s := stripChars_idem _
    unfold stripChars lstripChars
    have hdrop : (rstripChars (s.take (m - 1)) ++ ['…']).dropWhile
        Char.isWhitespace = rstripChars (s.take (m - 1)) ++ ['…'] := by
      cases hr : rstripChars (s.take (m - 1)) with
      | nil => simp [List.dropWhile_cons]
      | cons x xs =>
        have hhead : x.isWhitespace = false := by
          cases hS : s with
          | nil =>
            rw [hS] at hr
            simp [List.take_nil, rstripChars] at hr
          | cons y ys =>
            have hyn : y.isWhitespace = false := stripFix_head_nonWs hfix hS
            rw [hS] at hr
            rcases hm : m - 1 with _ | k <;> rw [hm] at hr
            case zero =>
              simp [rstripChars] at hr
            case succ =>
              rw [List.take_succ_cons] at hr
              rcases rstripChars_eq_nil_or_head y (ys.take k) with h0 | ⟨t'', h2⟩
              · rw [h0] at hr; cases hr
              · rw [h2] at hr
                have hxy : x = y := (List.cons.injEq _ _ _ _ ▸ hr).1.symm
                subst hxy
                exact hyn
        rw [List.cons_append, List.dropWhile_cons, if_neg (by simp [hhead])]
    rw [hdrop]
    exact rstripChars_append_nonWs (by decide) _

theorem shortenChars_length_le {m : Nat} (hm : 1 ≤ m) (t : List Char) :
    (shortenChars m t).length ≤ m := by
  simp only [shortenChars]
  split
  · assumption
  · have h1 := length_rstripChars_le
      ((stripChars (collapseChars t)).take (m - 1))
    have h2 := List.length_take_le (m - 1) (stripChars (collapseChars t))
    simp only [List.length_append, List.length_cons, List.length_nil]
    omega

theorem shortenChars_length_le_self (m : Nat) (t : List Char) :
    (shortenChars m t).length ≤ t.length := by
  simp only [shortenChars]
  have h1 : (stripChars (collapseChars t)).length ≤ t.length :=
    le_trans (length_stripChars_le _) (length_collapseGo_le t false)
  split
  · exact h1
  · next hlen =>
    have h2 := length_rstripChars_le
      ((stripChars (collapseChars t)).take (m - 1))
    have h3 := List.length_take_le (m - 1) (stripChars (collapseChars t))
    simp only [List.length_append, List.length_cons, List.length_nil]
    omega

theorem shortenChars_eq_self {m : Nat} {s : List Char}
    (hW : wsNormB s = true) (hS : stripChars s = s) (hL : s.length ≤ m) :
    shortenChars m s = s := by
  simp only [shortenChars]
  have h1 : collapseChars s = s := collapseGo_eq_self hW
  rw [h1, hS, if_pos hL]

theorem shortenChars_idem {m n : Nat} (hm : 1 ≤ m) (hmn : m ≤ n)
    (t : List Char) :
    shortenChars n (shortenChars m t) = shortenChars m t :=
  shortenChars_eq_self (shortenChars_wsNormB m t) (shortenChars_stripFix m t)
    (le_trans (shortenChars_length_le hm t) hmn)

/-! ### String-level wrappers -/

theorem shorten_text_idem {m n : Nat} (hm : 1 ≤ m) (hmn : m ≤ n)
    (s : String) : shorten_text (shorten_text s m) n = shorten_text s m :=
  String.ext (shortenChars_idem hm hmn s.data)

theorem shorten_text_length_le_self (s : String) (m : Nat) :
    (shorten_text s m).length ≤ s.length :=
  shortenChars_length_le_self m s.data

theorem shorten_text_length_le {m : Nat} (hm : 1 ≤ m) (s : String) :
    (shorten_text s m).length ≤ m :=
  shortenChars_length_le hm s.data

theorem pyStrip_idem (s : String) : pyStrip (pyStrip s) = pyStrip s :=
  String.ext (stripChars_idem s.data)

theorem length_pyStrip_le (s : String) : (pyStrip s).length ≤ s.length :=
  length_stripChars_le s.data

theorem pyStrip_shorten_text (s : String) (m : Nat) :
    pyStrip (shorten_text s m) = shorten_text s m :=
  String.ext (shortenChars_stripFix m s.data)

theorem shorten_text_empty (n : Nat) : shorten_text "" n = "" := by
  apply String.ext
  show shortenChars n [] = []
  simp [shortenChars, collapseChars, collapseGo, stripChars, lstripChars,
    rstripChars]

/-! ### `_clean_none` lemmas -/

theorem clean_none_empty : _clean_none "" = "" := by decide

theorem clean_none_stripFix (s : String) :
    pyStrip (_clean_none s) = _clean_none s := by
  simp only [_clean_none]
  split
  · decide
  · exact pyStrip_idem s

theorem clean_none_idem (s : String) :
    _clean_none (_clean_none s) = _clean_none s := by
  by_cases h : pyLower (pyStrip s) ∈ noneLikeTokens
  · unfold _clean_none
    rw [if_pos h]
    decide
  · unfold _clean_none
    rw [if_neg h, pyStrip_idem, if_neg h]

theorem length_clean_none_le (s : String) :
    (_clean_none s).length ≤ s.length := by
  simp only [_clean_none]
  split
  · exact Nat.zero_le _
  · exact length_pyStrip_le s

theorem clean_none_not_token {x : String} (h : _clean_none x ≠ "") :
    pyLower (_clean_none x) ∉ noneLikeTokens := by
  by_cases hmem : pyLower (pyStrip x) ∈ noneLikeTokens
  · exfalso
    apply h
    simp only [_clean_none]
    rw [if_pos hmem]
  · have hx : _clean_none x = pyStrip x := by
      simp only [_clean_none]
      rw [if_neg hmem]
    rw [hx]
    exact hmem

/-- Every whitespace character of a whitespace-normal list is a plain
space. -/
theorem wsNormB_mem_space {l : List Char} (h : wsNormB l = true) {c : Char}
    (hc : c ∈ l) (hw : c.isWhitespace = true) : c = ' ' := by
  induction l with
  | nil => cases hc
  | cons d t ih =>
    obtain ⟨hhead, htail, -⟩ := wsNormB_props h
    rcases List.mem_cons.1 hc with rfl | hct
    · exact hhead hw
    · exact ih htail hct

theorem tokens_no_space : ∀ w ∈ noneLikeTokens, ' ' ∉ w.data := by decide

theorem tokens_no_ellipsis : ∀ w ∈ noneLikeTokens, '…' ∉ w.data := by decide

theorem not_mem_tokens_of_space {z : String} (h : ' ' ∈ z.data) :
    pyLower z ∉ noneLikeTokens := by
  intro hmem
  have h2 : ' ' ∈ (pyLower z).data := by
    have := List.mem_map_of_mem Char.toLower h
    simpa [pyLower] using this
  exact tokens_no_space _ hmem h2

theorem not_mem_tokens_of_ellipsis {z : String} (h : '…' ∈ z.data) :
    pyLower z ∉ noneLikeTokens := by
  intro hmem
  have h2 : '…' ∈ (pyLower z).data := by
    have := List.mem_map_of_mem Char.toLower h
    simpa [pyLower] using this
  exact tokens_no_ellipsis _ hmem h2

/-- The central cleanliness fact: shortening a `_clean_none` output and
cleaning it again changes nothing (the shortened text is stripped and
never a none-like token). -/
theorem clean_shorten_clean (x : String) (n : Nat) :
    _clean_none (shorten_text (_clean_none x) n)
      = shorten_text (_clean_none x) n := by
  by_cases hempty : _clean_none x = ""
  · rw [hempty, shorten_text_empty, clean_none_empty]
  · have hynot := clean_none_not_token hempty
    have hyfix : pyStrip (_clean_none x) = _clean_none x :=
      clean_none_stripFix x
    have hyfix' : stripChars (_clean_none x).data = (_clean_none x).data :=
      congrArg String.data hyfix
    have hzfix : pyStrip (shorten_text (_clean_none x) n)
        = shorten_text (_clean_none x) n := pyStrip_shorten_text _ n
    have hznot : pyLower (shorten_text (_clean_none x) n) ∉ noneLikeTokens := by
      have hzdata : (shorten_text (_clean_none x) n).data
          = shortenChars n (_clean_none x).data := rfl
      by_cases hlen :
          (stripChars (collapseChars (_clean_none x).data)).length ≤ n
      · have hz1 : (shorten_text (_clean_none x) n).data
            = stripChars (collapseChars (_clean_none x).data) := by
          rw [hzdata]
          simp only [shortenChars]
          rw [if_pos hlen]
        by_cases hws : ∃ c ∈ (shorten_text (_clean_none x) n).data,
            c.isWhitespace = true
        · obtain ⟨c, hcmem, hcw⟩ := hws
          have hwnorm : wsNormB (shorten_text (_clean_none x) n).data = true := by
            rw [hzdata]
            exact shortenChars_wsNormB n _
          have hsp : c = ' ' := wsNormB_mem_space hwnorm hcmem hcw
          subst hsp
          exact not_mem_tokens_of_space hcmem
        · push_neg at hws
          have hnows : ∀ c ∈ (_clean_none x).data, c.isWhitespace = false := by
            intro c hcm
            by_contra hcw
            have hcw' : c.isWhitespace = true := by simpa using hcw
            have hsp : ' ' ∈ collapseChars (_clean_none x).data :=
              space_mem_collapseGo ⟨c, hcm, hcw'⟩
            have hstc := strip_collapse_of_stripFix hyfix'
            rw [hz1, hstc] at hws
            have := hws ' ' hsp
            simp at this
          have hcoll : collapseChars (_clean_none x).data
              = (_clean_none x).data :=
            collapseGo_eq_self (wsNormB_of_no_ws hnows)
          have hzy : shorten_text (_clean_none x) n = _clean_none x := by
            apply String.ext
            rw [hz1, hcoll, hyfix']
          rw [hzy]
          exact hynot
      · have hz2 : (shorten_text (_clean_none x) n).data
            = rstripChars
                ((stripChars (collapseChars (_clean_none x).data)).take
                  (n - 1)) ++ ['…'] := by
          rw [hzdata]
          simp only [shortenChars]
          rw [if_neg hlen]
        have hdots : '…' ∈ (shorten_text (_clean_none x) n).data := by
          rw [hz2]
          exact List.mem_append_right _ (List.mem_singleton.2 rfl)
        exact not_mem_tokens_of_ellipsis hdots
    conv_lhs => rw [_clean_none]
    rw [hzfix, if_neg hznot]

/-! ### `limit_bullets` lemmas -/

/-- One-step unfolding of `limitBulletsGo`. -/
theorem limitBulletsGo_cons (maxN : Nat) (b : String) (rest : List String)
    (cnt : Nat) :
    limitBulletsGo maxN (b :: rest) cnt
      = if pyStrip b = "" then
          (if maxN ≤ cnt then [] else limitBulletsGo maxN rest cnt)
        else (if maxN ≤ cnt + 1 then [pyStrip b]
          else pyStrip b :: limitBulletsGo maxN rest (cnt + 1)) := rfl

theorem limitBulletsGo_mem {maxN : Nat} {l : List String} {cnt : Nat}
    {b : String} (h : b ∈ limitBulletsGo maxN l cnt) :
    (∃ a ∈ l, b = pyStrip a) ∧ b ≠ "" := by
  induction l generalizing cnt with
  | nil => cases h
  | cons a rest ih =>
    rw [limitBulletsGo_cons] at h
    by_cases hs : pyStrip a = ""
    · rw [if_pos hs] at h
      by_cases hc : maxN ≤ cnt
      · rw [if_pos hc] at h; cases h
      · rw [if_neg hc] at h
        obtain ⟨⟨a', ha', hba⟩, hne⟩ := ih h
        exact ⟨⟨a', List.mem_cons_of_mem a ha', hba⟩, hne⟩
    · rw [if_neg hs] at h
      by_cases hc : maxN ≤ cnt + 1
      · rw [if_pos hc] at h
        have : b = pyStrip a := by simpa using h
        exact ⟨⟨a, List.mem_cons_self a rest, this⟩, this ▸ hs⟩
      · rw [if_neg hc] at h
        rcases List.mem_cons.1 h with rfl | h2
        · exact ⟨⟨a, List.mem_cons_self a rest, rfl⟩, hs⟩
        · obtain ⟨⟨a', ha', hba⟩, hne⟩ := ih h2
          exact ⟨⟨a', List.mem_cons_of_mem a ha', hba⟩, hne⟩

theorem sumLens_cons (a : String) (l : List String) :
    sumLens (a :: l) = a.length + sumLens l := by
  simp [sumLens]

theorem limitBulletsGo_sumLens_le (maxN : Nat) (l : List String)
    (cnt : Nat) : sumLens (limitBulletsGo maxN l cnt) ≤ sumLens l := by
  induction l generalizing cnt with
  | nil => simp [limitBulletsGo]
  | cons a rest ih =>
    rw [limitBulletsGo_cons, sumLens_cons]
    have hstrip := length_pyStrip_le a
    by_cases hs : pyStrip a = ""
    · rw [if_pos hs]
      by_cases hc : maxN ≤ cnt
      · rw [if_pos hc]; simp [sumLens]
      · rw [if_neg hc]
        have := ih cnt
        omega
    · rw [if_neg hs]
      by_cases hc : maxN ≤ cnt + 1
      · rw [if_pos hc]
        rw [sumLens_cons]
        simp only [sumLens, List.map_nil, List.sum_nil]
        omega
      · rw [if_neg hc, sumLens_cons]
        have := ih (cnt + 1)
        omega

theorem limitBulletsGo_eq_self {maxN : Nat} {l : List String} {cnt : Nat}
    (h : ∀ b ∈ l, pyStrip b = b ∧ b ≠ "") (hlen : l.length + cnt ≤ maxN) :
    limitBulletsGo maxN l cnt = l := by
  induction l generalizing cnt with
  | nil => rfl
  | cons a rest ih =>
    obtain ⟨hfix, hne⟩ := h a (List.mem_cons_self a rest)
    rw [limitBulletsGo_cons, if_neg (by rw [hfix]; exact hne), hfix]
    simp only [List.length_cons] at hlen
    by_cases hc : maxN ≤ cnt + 1
    · have : rest = [] := by
        cases rest with
        | nil => rfl
        | cons x xs => simp [List.length_cons] at hlen; omega
      rw [if_pos hc, this]
    · rw [if_neg hc,
        ih (fun b hb => h b (List.mem_cons_of_mem a hb)) (by omega)]

theorem limit_bullets_mem {l : List String} {maxN : Nat} {b : String}
    (h : b ∈ limit_bullets l maxN) : (∃ a ∈ l, b = pyStrip a) ∧ b ≠ "" :=
  limitBulletsGo_mem h

theorem limit_bullets_sumLens_le (l : List String) (maxN : Nat) :
    sumLens (limit_bullets l maxN) ≤ sumLens l :=
  limitBulletsGo_sumLens_le maxN l 0

theorem limit_bullets_eq_self {l : List String} {maxN : Nat}
    (h : ∀ b ∈ l, pyStrip b = b ∧ b ≠ "") (hlen : l.length ≤ maxN) :
    limit_bullets l maxN = l :=
  limitBulletsGo_eq_self h (by omega)

/-! ### Certification fixpoint and dedup lemmas -/

theorem cleanCert_idem (c : Cert) : cleanCert (cleanCert c) = cleanCert c := by
  simp [cleanCert, clean_none_idem]

/-- A normalized-then-cleaned certification is a fixpoint of
normalization. -/
theorem normalizeCertDict_clean_fixed (c : Cert) :
    normalizeCertDict (cleanCert (normalizeCertDict c))
      = cleanCert (normalizeCertDict c) := by
  have hdesc := clean_shorten_clean c.description 160
  have hidem := shorten_text_idem (m := 160) (n := 160) (by omega)
    (Nat.le_refl _) (_clean_none c.description)
  simp only [normalizeCertDict, cleanCert, clean_none_idem, hdesc, hidem]

theorem sublist_sum_le {l₁ l₂ : List Nat} (h : List.Sublist l₁ l₂) :
    l₁.sum ≤ l₂.sum := by
  induction h with
  | slnil => exact Nat.le_refl _
  | cons a h ih => simp only [List.sum_cons]; omega
  | cons₂ a h ih => simp only [List.sum_cons]; omega

theorem dedupCerts_mem_shape {l : List Cert}
    {seen : List (String × String × String × String)} {c : Cert}
    (h : c ∈ dedupCerts l seen) :
    ∃ c0 ∈ l, c = cleanCert c0 ∧ certIsEmpty (cleanCert c0) = false := by
  induction l generalizing seen with
  | nil => cases h
  | cons d rest ih =>
    simp only [dedupCerts] at h
    by_cases he : certIsEmpty (cleanCert d)
    · rw [if_pos he] at h
      obtain ⟨c0, hc0, hc⟩ := ih h
      exact ⟨c0, List.mem_cons_of_mem d hc0, hc⟩
    · rw [if_neg he] at h
      by_cases hm : certKey (cleanCert d) ∈ seen
      · rw [if_pos hm] at h
        obtain ⟨c0, hc0, hc⟩ := ih h
        exact ⟨c0, List.mem_cons_of_mem d hc0, hc⟩
      · rw [if_neg hm] at h
        rcases List.mem_cons.1 h with rfl | h2
        · exact ⟨d, List.mem_cons_self d rest, rfl, by simpa using he⟩
        · obtain ⟨c0, hc0, hc⟩ := ih h2
          exact ⟨c0, List.mem_cons_of_mem d hc0, hc⟩

theorem dedupCerts_sublist (l : List Cert)
    (seen : List (String × String × String × String)) :
    List.Sublist (dedupCerts l seen) (l.map cleanCert) := by
  induction l generalizing seen with
  | nil => simp [dedupCerts]
  | cons d rest ih =>
    simp only [dedupCerts, List.map_cons]
    by_cases he : certIsEmpty (cleanCert d)
    · rw [if_pos he]
      exact List.Sublist.cons _ (ih seen)
    · rw [if_neg he]
      by_cases hm : certKey (cleanCert d) ∈ seen
      · rw [if_pos hm]
        exact List.Sublist.cons _ (ih seen)
      · rw [if_neg hm]
        exact List.Sublist.cons₂ _ (ih _)

theorem dedupCerts_eq_self {l : List Cert}
    {seen : List (String × String × String × String)}
    (h1 : ∀ c ∈ l, cleanCert c = c ∧ certIsEmpty c = false)
    (h2 : l.Pairwise (fun a b => certKey a ≠ certKey b))
    (h3 : ∀ c ∈ l, certKey c ∉ seen) : dedupCerts l seen = l := by
  induction l generalizing seen with
  | nil => rfl
  | cons d rest ih =>
    obtain ⟨hfix, hne⟩ := h1 d (List.mem_cons_self d rest)
    simp only [dedupCerts, hfix]
    rw [if_neg (by simp [hne]), if_neg (h3 d (List.mem_cons_self d rest))]
    congr 1
    refine ih (fun c hc => h1 c (List.mem_cons_of_mem d hc))
      (List.Pairwise.sublist (List.sublist_cons_self d rest) h2) ?_
    intro c hc
    simp only [List.mem_cons, not_or]
    refine ⟨?_, h3 c (List.mem_cons_of_mem d hc)⟩
    have := (List.pairwise_cons.1 h2).1 c hc
    exact fun hk => this hk.symm

/-! ### Record-level lemmas for compressor idempotence -/

/-- Record equality from fieldwise equality. -/
theorem recordExt {a b : Record}
    (h1 : a.first_name = b.first_name) (h2 : a.last_name = b.last_name)
    (h3 : a.email = b.email) (h4 : a.phone = b.phone)
    (h5 : a.location = b.location) (h6 : a.summary = b.summary)
    (h7 : a.links = b.links) (h8 : a.skills = b.skills)
    (h9 : a.skills_row1 = b.skills_row1) (h10 : a.skills_row2 = b.skills_row2)
    (h11 : a.skills_row3 = b.skills_row3) (h12 : a.experience = b.experience)
    (h13 : a.projects = b.projects) (h14 : a.education = b.education)
    (h15 : a.certifications = b.certifications)
    (h16 : a.publications = b.publications)
    (h17 : a.show_summary = b.show_summary)
    (h18 : a.section_order = b.section_order) : a = b := by
  cases a; cases b
  simp_all

theorem map_eq_self_of {α : Type} {f : α → α} {l : List α}
    (h : ∀ a ∈ l, f a = a) : l.map f = l :=
  (List.map_congr_left fun a ha => h a ha).trans (List.map_id l)

/-- Membership through `map`-then-`take`. -/
theorem mem_map_take {α β : Type} {f : α → β} {l : List α} {n : Nat}
    {b : β} (h : b ∈ (l.map f).take n) : ∃ a ∈ l, b = f a := by
  have := List.Sublist.mem h (List.take_sublist n (l.map f))
  obtain ⟨a, ha, hfa⟩ := List.mem_map.1 this
  exact ⟨a, ha, hfa.symm⟩

/-! Projections of `compressShape` (definitional). -/

theorem compressShape_experience (d : Record) (bp : BandParams) :
    (compressShape d bp).experience
      = (d.experience.map (shapeExpEntry bp)).take bp.max_exp := rfl

theorem compressShape_projects (d : Record) (bp : BandParams) :
    (compressShape d bp).projects
      = (d.projects.map (shapeProjEntry bp)).take bp.max_proj := rfl

theorem compressShape_education (d : Record) (bp : BandParams) :
    (compressShape d bp).education
      = (d.education.map shapeEduEntry).take bp.max_edu := rfl

theorem compressShape_certifications (d : Record) (bp : BandParams) :
    (compressShape d bp).certifications
      = (dedupCerts (d.certifications.map normalizeCertDict) []).take
          bp.max_cert := rfl

theorem compressShape_publications (d : Record) (bp : BandParams) :
    (compressShape d bp).publications
      = d.publications.take MAX_PUBLICATIONS_DEFAULT := rfl

theorem compressShape_skills (d : Record) (bp : BandParams) :
    (compressShape d bp).skills
      = (d.skills.map (fun s => shorten_text s 90)).take
          MAX_SKILLS_DEFAULT := rfl

theorem compressShape_summary (d : Record) (bp : BandParams) :
    (compressShape d bp).summary = d.summary := rfl

/-- Bullets produced by the compressor's shaping are stripped and
non-empty. -/
theorem shapeExpEntry_bullets_props {bp : BandParams} {e : Exp} {b : String}
    (h : b ∈ (shapeExpEntry bp e).bullets) : pyStrip b = b ∧ b ≠ "" := by
  have hb : b ∈ limit_bullets (normalizeDatesExp e).bullets
      bp.max_bullets_exp := h
  obtain ⟨⟨a, -, hba⟩, hne⟩ := limit_bullets_mem hb
  exact ⟨by rw [hba]; exact pyStrip_idem a, hne⟩

theorem shapeProjEntry_bullets_props {bp : BandParams} {p : Proj}
    {b : String} (h : b ∈ (shapeProjEntry bp p).bullets) :
    pyStrip b = b ∧ b ≠ "" := by
  have hb : b ∈ limit_bullets (normalizeDatesProj p).bullets
      bp.max_bullets_proj := h
  obtain ⟨⟨a, -, hba⟩, hne⟩ := limit_bullets_mem hb
  exact ⟨by rw [hba]; exact pyStrip_idem a, hne⟩

theorem shapeEduEntry_of_nil {x : Edu} (hd : x.details = []) :
    shapeEduEntry x = x := by
  unfold shapeEduEntry
  rw [if_neg]
  simp [hd]

theorem shapeEduEntry_of_ne_nil {x : Edu} (hd : x.details ≠ []) :
    shapeEduEntry x
      = { x with details := x.details.map (fun s => shorten_text s 120) } := by
  unfold shapeEduEntry
  rw [if_pos]
  simpa using hd

set_option maxHeartbeats 2000000 in
/-- Sanitizing the compressor's output again changes nothing, provided
no skill and no education detail shortens to the empty string. -/
theorem sanitize_compressShape_fix (d : Record) (bp : BandParams)
    (Hsk : ∀ s ∈ d.skills, shorten_text s 90 ≠ "")
    (Hdet : ∀ e ∈ d.education, ∀ x ∈ e.details, shorten_text x 120 ≠ "") :
    sanitize_struct (injRecord (compressShape d bp))
      = compressShape d bp := by
  refine recordExt rfl rfl rfl rfl rfl rfl rfl ?h8 rfl rfl rfl ?h12 ?h13
    ?h14 ?h15 rfl rfl rfl
  case h8 =>
    show (compressShape d bp).skills.filter (fun s => s ≠ "")
        = (compressShape d bp).skills
    apply List.filter_eq_self.2
    intro a ha
    rw [compressShape_skills] at ha
    obtain ⟨s, hs, rfl⟩ := mem_map_take ha
    simpa using Hsk s hs
  case h12 =>
    show (compressShape d bp).experience.map sanitizeExp
        = (compressShape d bp).experience
    apply map_eq_self_of
    intro e he
    rw [compressShape_experience] at he
    obtain ⟨x, -, rfl⟩ := mem_map_take he
    show { shapeExpEntry bp x with
        bullets := (shapeExpEntry bp x).bullets.filter (fun b => b ≠ "") }
      = shapeExpEntry bp x
    rw [List.filter_eq_self.2 fun b hb =>
      by simpa using (shapeExpEntry_bullets_props hb).2]
  case h13 =>
    show (compressShape d bp).projects.map sanitizeProj
        = (compressShape d bp).projects
    apply map_eq_self_of
    intro p hp
    rw [compressShape_projects] at hp
    obtain ⟨x, -, rfl⟩ := mem_map_take hp
    show { shapeProjEntry bp x with
        bullets := (shapeProjEntry bp x).bullets.filter (fun b => b ≠ "") }
      = shapeProjEntry bp x
    rw [List.filter_eq_self.2 fun b hb =>
      by simpa using (shapeProjEntry_bullets_props hb).2]
  case h14 =>
    show (compressShape d bp).education.map sanitizeEdu
        = (compressShape d bp).education
    apply map_eq_self_of
    intro u hu
    rw [compressShape_education] at hu
    obtain ⟨x, hx, rfl⟩ := mem_map_take hu
    show { shapeEduEntry x with
        details := (shapeEduEntry x).details.filter (fun s => s ≠ "") }
      = shapeEduEntry x
    rw [List.filter_eq_self.2 ?_]
    intro s hs
    by_cases hd : x.details = []
    · rw [shapeEduEntry_of_nil hd, hd] at hs
      cases hs
    · rw [shapeEduEntry_of_ne_nil hd] at hs
      obtain ⟨xd, hxd, rfl⟩ := List.mem_map.1 hs
      simpa using Hdet x hx xd hxd
  case h15 =>
    show ((compressShape d bp).certifications.map Sum.inr).map
          normalize_cert_item
        = (compressShape d bp).certifications
    rw [List.map_map]
    apply map_eq_self_of
    intro c hc
    rw [compressShape_certifications] at hc
    have hc2 := List.Sublist.mem hc (List.take_sublist _ _)
    obtain ⟨c0, hc0, rfl, -⟩ := dedupCerts_mem_shape hc2
    obtain ⟨c1, -, rfl⟩ := List.mem_map.1 hc0
    exact normalizeCertDict_clean_fixed c1

/-! ### The size proxy never grows under compression -/

theorem sum_map_le {α : Type} {f g : α → Nat} {l : List α}
    (h : ∀ a ∈ l, f a ≤ g a) : (l.map f).sum ≤ (l.map g).sum := by
  induction l with
  | nil => simp
  | cons a t ih =>
    simp only [List.map_cons, List.sum_cons]
    have h1 := h a (List.mem_cons_self a t)
    have h2 := ih fun x hx => h x (List.mem_cons_of_mem a hx)
    omega

theorem sum_map_take_le {α : Type} (f : α → Nat) (l : List α) (n : Nat) :
    ((l.take n).map f).sum ≤ (l.map f).sum :=
  sublist_sum_le ((List.take_sublist n l).map f)

theorem sumLens_take_le (l : List String) (n : Nat) :
    sumLens (l.take n) ≤ sumLens l :=
  sum_map_take_le String.length l n

theorem normalizeDatesProj_fields (p : Proj) :
    (normalizeDatesProj p).name = p.name
      ∧ (normalizeDatesProj p).tech = p.tech
      ∧ (normalizeDatesProj p).summary = p.summary
      ∧ (normalizeDatesProj p).bullets = p.bullets := by
  unfold normalizeDatesProj
  split <;> exact ⟨rfl, rfl, rfl, rfl⟩

theorem expChars_shapeExpEntry_le {bp : BandParams} {e : Exp}
    (hd : pyStrip e.start_date = "" ∨ pyStrip e.end_date ≠ "") :
    expChars (shapeExpEntry bp e) ≤ expChars e := by
  have hnd : normalizeDatesExp e = e := by
    unfold normalizeDatesExp
    rw [if_neg]
    rintro ⟨hs, he⟩
    rcases hd with hd | hd
    · exact hs hd
    · exact hd he
  unfold shapeExpEntry
  rw [hnd]
  simp only [expChars]
  have h1 := shorten_text_length_le_self e.summary bp.sum_limit_exp
  have h2 := limit_bullets_sumLens_le e.bullets bp.max_bullets_exp
  omega

theorem projChars_shapeProjEntry_le (bp : BandParams) (p : Proj) :
    projChars (shapeProjEntry bp p) ≤ projChars p := by
  obtain ⟨hn, ht, hs, hb⟩ := normalizeDatesProj_fields p
  unfold shapeProjEntry
  simp only [projChars, hn, ht, hs, hb]
  have h1 := shorten_text_length_le_self p.summary bp.sum_limit_proj
  have h2 := limit_bullets_sumLens_le p.bullets bp.max_bullets_proj
  omega

theorem eduChars_shapeEduEntry_le (u : Edu) :
    eduChars (shapeEduEntry u) ≤ eduChars u := by
  by_cases hd : u.details = []
  · rw [shapeEduEntry_of_nil hd]
  · rw [shapeEduEntry_of_ne_nil hd]
    simp only [eduChars]
    have hsum : sumLens (u.details.map (fun s => shorten_text s 120))
        ≤ sumLens u.details := by
      unfold sumLens
      rw [List.map_map]
      exact sum_map_le fun a _ => shorten_text_length_le_self a 120
    omega

theorem certChars_cleanCert_le (c : Cert) :
    certChars (cleanCert c) ≤ certChars c := by
  simp only [certChars, cleanCert]
  have h1 := length_clean_none_le c.name
  have h2 := length_clean_none_le c.issuer
  have h3 := length_clean_none_le c.date
  have h4 := length_clean_none_le c.description
  omega

theorem certChars_normalizeCertDict_le (c : Cert) :
    certChars (normalizeCertDict c) ≤ certChars c := by
  simp only [certChars, normalizeCertDict]
  have h1 := length_clean_none_le c.name
  have h2 := length_clean_none_le c.issuer
  have h3 := length_clean_none_le c.date
  have h4 := shorten_text_length_le_self (_clean_none c.description) 160
  have h5 := length_clean_none_le c.description
  omega

theorem dedupCerts_sum_le (l : List Cert)
    (seen : List (String × String × String × String)) :
    ((dedupCerts l seen).map certChars).sum ≤ (l.map certChars).sum := by
  have h2 := sublist_sum_le ((dedupCerts_sublist l seen).map certChars)
  have h3 : ((l.map cleanCert).map certChars).sum
      ≤ (l.map certChars).sum := by
    rw [List.map_map]
    exact sum_map_le fun c _ => certChars_cleanCert_le c
  omega

/-- Compression never increases the size proxy, provided no experience
entry has a start date without an end date (otherwise the injected
`"Present"` grows the count). -/
theorem approx_compressShape_le (d : Record) (bp : BandParams)
    (Hdate : ∀ e ∈ d.experience,
      pyStrip e.start_date = "" ∨ pyStrip e.end_date ≠ "") :
    _approx_char_count (compressShape d bp) ≤ _approx_char_count d := by
  have hskills : sumLens ((compressShape d bp).skills) ≤ sumLens d.skills := by
    rw [compressShape_skills]
    refine le_trans (sumLens_take_le _ _) ?_
    unfold sumLens
    rw [List.map_map]
    exact sum_map_le fun a _ => shorten_text_length_le_self a 90
  have hexp : ((compressShape d bp).experience.map expChars).sum
      ≤ (d.experience.map expChars).sum := by
    rw [compressShape_experience]
    refine le_trans (sum_map_take_le expChars _ _) ?_
    rw [List.map_map]
    exact sum_map_le fun e he => expChars_shapeExpEntry_le (Hdate e he)
  have hproj : ((compressShape d bp).projects.map projChars).sum
      ≤ (d.projects.map projChars).sum := by
    rw [compressShape_projects]
    refine le_trans (sum_map_take_le projChars _ _) ?_
    rw [List.map_map]
    exact sum_map_le fun p _ => projChars_shapeProjEntry_le bp p
  have hedu : ((compressShape d bp).education.map eduChars).sum
      ≤ (d.education.map eduChars).sum := by
    rw [compressShape_education]
    refine le_trans (sum_map_take_le eduChars _ _) ?_
    rw [List.map_map]
    exact sum_map_le fun u _ => eduChars_shapeEduEntry_le u
  have hcert : ((compressShape d bp).certifications.map certChars).sum
      ≤ (d.certifications.map certChars).sum := by
    rw [compressShape_certifications]
    refine le_trans (sum_map_take_le certChars _ _) ?_
    refine le_trans (dedupCerts_sum_le _ []) ?_
    rw [List.map_map]
    exact sum_map_le fun c _ => certChars_normalizeCertDict_le c
  have hpubs : sumLens ((compressShape d bp).publications)
      ≤ sumLens d.publications := by
    rw [compressShape_publications]
    exact sumLens_take_le _ _
  show (compressShape d bp).first_name.length
      + (compressShape d bp).last_name.length
      + (compressShape d bp).summary.length
      + sumLens (compressShape d bp).skills
      + ((compressShape d bp).experience.map expChars).sum
      + ((compressShape d bp).projects.map projChars).sum
      + ((compressShape d bp).education.map eduChars).sum
      + ((compressShape d bp).certifications.map certChars).sum
      + sumLens (compressShape d bp).publications
      ≤ _approx_char_count d
  have hfn : (compressShape d bp).first_name = d.first_name := rfl
  have hln : (compressShape d bp).last_name = d.last_name := rfl
  have hsum : (compressShape d bp).summary = d.summary := rfl
  rw [hfn, hln, hsum]
  unfold _approx_char_count
  omega

/-! ### Band parameters are antitone in the size proxy -/

/-- A smaller size proxy yields equal-or-looser band limits. -/
theorem bandParams_mono {b1 b2 : Nat} (h : b2 ≤ b1) :
    (bandParams b1).max_exp ≤ (bandParams b2).max_exp
      ∧ (bandParams b1).max_proj ≤ (bandParams b2).max_proj
      ∧ (bandParams b1).max_edu ≤ (bandParams b2).max_edu
      ∧ (bandParams b1).max_cert ≤ (bandParams b2).max_cert
      ∧ (bandParams b1).max_bullets_exp ≤ (bandParams b2).max_bullets_exp
      ∧ (bandParams b1).max_bullets_proj ≤ (bandParams b2).max_bullets_proj
      ∧ (bandParams b1).sum_limit_exp ≤ (bandParams b2).sum_limit_exp
      ∧ (bandParams b1).sum_limit_proj ≤ (bandParams b2).sum_limit_proj := by
  unfold bandParams SHORT_MAX LONG_MIN MAX_EXP_DEFAULT MAX_PROJ_DEFAULT
    MAX_EDU_DEFAULT MAX_CERTS_DEFAULT MAX_BULLETS_EXP_DEFAULT
    MAX_BULLETS_PROJ_DEFAULT
  split_ifs <;> dsimp only <;> omega

theorem bandParams_pos (n : Nat) :
    1 ≤ (bandParams n).max_bullets_exp
      ∧ 1 ≤ (bandParams n).max_bullets_proj
      ∧ 1 ≤ (bandParams n).sum_limit_exp
      ∧ 1 ≤ (bandParams n).sum_limit_proj := by
  unfold bandParams SHORT_MAX LONG_MIN MAX_BULLETS_EXP_DEFAULT
    MAX_BULLETS_PROJ_DEFAULT
  split_ifs <;> dsimp only <;> omega

/-! ### Re-shaping shaped entries is the identity -/

theorem normalizeDatesExp_eq_of_not (e : Exp)
    (h : ¬(pyStrip e.start_date ≠ "" ∧ pyStrip e.end_date = "")) :
    normalizeDatesExp e = e := by
  unfold normalizeDatesExp
  rw [if_neg h]

theorem normalizeDatesExp_cond (e : Exp) :
    ¬(pyStrip (normalizeDatesExp e).start_date ≠ ""
      ∧ pyStrip (normalizeDatesExp e).end_date = "") := by
  unfold normalizeDatesExp
  split
  · rintro ⟨-, h2⟩
    exact absurd h2 (by decide : ¬(pyStrip "Present" = ""))
  · next hcond => exact hcond

theorem normalizeDatesProj_eq_of_not (p : Proj)
    (h : ¬(pyStrip p.start_date ≠ "" ∧ pyStrip p.end_date = "")) :
    normalizeDatesProj p = p := by
  unfold normalizeDatesProj
  rw [if_neg h]

theorem normalizeDatesProj_cond (p : Proj) :
    ¬(pyStrip (normalizeDatesProj p).start_date ≠ ""
      ∧ pyStrip (normalizeDatesProj p).end_date = "") := by
  unfold normalizeDatesProj
  split
  · rintro ⟨-, h2⟩
    exact absurd h2 (by decide : ¬(pyStrip "Present" = ""))
  · next hcond => exact hcond

theorem shapeExpEntry_fixed {bp bp' : BandParams} (e : Exp)
    (hbb : 1 ≤ bp.max_bullets_exp)
    (hb : bp.max_bullets_exp ≤ bp'.max_bullets_exp)
    (hs1 : 1 ≤ bp.sum_limit_exp)
    (hs : bp.sum_limit_exp ≤ bp'.sum_limit_exp) :
    shapeExpEntry bp' (shapeExpEntry bp e) = shapeExpEntry bp e := by
  have hndE : normalizeDatesExp (shapeExpEntry bp e) = shapeExpEntry bp e :=
    normalizeDatesExp_eq_of_not _ (normalizeDatesExp_cond e)
  show { normalizeDatesExp (shapeExpEntry bp e) with
      summary := shorten_text (normalizeDatesExp (shapeExpEntry bp e)).summary
        bp'.sum_limit_exp
      bullets := limit_bullets
        (normalizeDatesExp (shapeExpEntry bp e)).bullets
        bp'.max_bullets_exp }
    = shapeExpEntry bp e
  rw [hndE]
  have hsum : shorten_text (shapeExpEntry bp e).summary bp'.sum_limit_exp
      = (shapeExpEntry bp e).summary :=
    shorten_text_idem hs1 hs (normalizeDatesExp e).summary
  have hbul : limit_bullets (shapeExpEntry bp e).bullets bp'.max_bullets_exp
      = (shapeExpEntry bp e).bullets := by
    apply limit_bullets_eq_self
    · exact fun b hb2 => shapeExpEntry_bullets_props hb2
    · exact le_trans
        (limit_bullets_length_le (normalizeDatesExp e).bullets
          bp.max_bullets_exp hbb) hb
  rw [hsum, hbul]

theorem shapeProjEntry_fixed {bp bp' : BandParams} (p : Proj)
    (hbb : 1 ≤ bp.max_bullets_proj)
    (hb : bp.max_bullets_proj ≤ bp'.max_bullets_proj)
    (hs1 : 1 ≤ bp.sum_limit_proj)
    (hs : bp.sum_limit_proj ≤ bp'.sum_limit_proj) :
    shapeProjEntry bp' (shapeProjEntry bp p) = shapeProjEntry bp p := by
  have hndP : normalizeDatesProj (shapeProjEntry bp p) = shapeProjEntry bp p :=
    normalizeDatesProj_eq_of_not _ (normalizeDatesProj_cond p)
  show { normalizeDatesProj (shapeProjEntry bp p) with
      summary := shorten_text
        (normalizeDatesProj (shapeProjEntry bp p)).summary bp'.sum_limit_proj
      bullets := limit_bullets
        (normalizeDatesProj (shapeProjEntry bp p)).bullets
        bp'.max_bullets_proj }
    = shapeProjEntry bp p
  rw [hndP]
  have hsum : shorten_text (shapeProjEntry bp p).summary bp'.sum_limit_proj
      = (shapeProjEntry bp p).summary :=
    shorten_text_idem hs1 hs (normalizeDatesProj p).summary
  have hbul : limit_bullets (shapeProjEntry bp p).bullets
      bp'.max_bullets_proj = (shapeProjEntry bp p).bullets := by
    apply limit_bullets_eq_self
    · exact fun b hb2 => shapeProjEntry_bullets_props hb2
    · exact le_trans
        (limit_bullets_length_le (normalizeDatesProj p).bullets
          bp.max_bullets_proj hbb) hb
  rw [hsum, hbul]

theorem shapeEduEntry_idem (u : Edu) :
    shapeEduEntry (shapeEduEntry u) = shapeEduEntry u := by
  by_cases hd : u.details = []
  · rw [shapeEduEntry_of_nil hd]
    exact shapeEduEntry_of_nil hd
  · rw [shapeEduEntry_of_ne_nil hd]
    have hd2 : (u.details.map (fun s => shorten_text s 120)) ≠ [] := by
      simpa using hd
    rw [shapeEduEntry_of_ne_nil (x := { u with
      details := u.details.map (fun s => shorten_text s 120) }) hd2]
    have : (u.details.map (fun s => shorten_text s 120)).map
        (fun s => shorten_text s 120)
        = u.details.map (fun s => shorten_text s 120) := by
      apply map_eq_self_of
      intro a ha
      obtain ⟨s, -, rfl⟩ := List.mem_map.1 ha
      exact shorten_text_idem (by omega) (Nat.le_refl _) s
    rw [this]

/-- `show_summary` of the shaped record, phrased through the shaped
record's own lists. -/
theorem compressShape_show_summary_eq (d : Record) (bp : BandParams) :
    (compressShape d bp).show_summary
      = decide (d.summary ≠ ""
          ∧ ((compressShape d bp).experience.filter
              (fun e => e.title ≠ "" ∨ e.company ≠ "")).length
            + ((compressShape d bp).skills.filter (fun s => s ≠ "")).length
            + (compressShape d bp).education.length < 6) := rfl

set_option maxHeartbeats 1000000 in
/-- Re-running the shaping stage with equal-or-looser band limits on an
already-shaped record changes nothing. -/
theorem compressShape_fixed (d : Record) (bp bp' : BandParams)
    (h1 : bp.max_exp ≤ bp'.max_exp) (h2 : bp.max_proj ≤ bp'.max_proj)
    (h3 : bp.max_edu ≤ bp'.max_edu) (h4 : bp.max_cert ≤ bp'.max_cert)
    (h5 : bp.max_bullets_exp ≤ bp'.max_bullets_exp)
    (h6 : bp.max_bullets_proj ≤ bp'.max_bullets_proj)
    (h7 : bp.sum_limit_exp ≤ bp'.sum_limit_exp)
    (h8 : bp.sum_limit_proj ≤ bp'.sum_limit_proj)
    (p1 : 1 ≤ bp.max_bullets_exp) (p2 : 1 ≤ bp.max_bullets_proj)
    (p3 : 1 ≤ bp.sum_limit_exp) (p4 : 1 ≤ bp.sum_limit_proj) :
    compressShape (compressShape d bp) bp' = compressShape d bp := by
  have hexp : (compressShape (compressShape d bp) bp').experience
      = (compressShape d bp).experience := by
    rw [compressShape_experience (compressShape d bp) bp']
    have hmap : (compressShape d bp).experience.map (shapeExpEntry bp')
        = (compressShape d bp).experience := by
      apply map_eq_self_of
      intro e he
      rw [compressShape_experience] at he
      obtain ⟨x, -, rfl⟩ := mem_map_take he
      exact shapeExpEntry_fixed x p1 h5 p3 h7
    rw [hmap]
    apply List.take_of_length_le
    rw [compressShape_experience]
    exact le_trans (List.length_take_le _ _) h1
  have hproj : (compressShape (compressShape d bp) bp').projects
      = (compressShape d bp).projects := by
    rw [compressShape_projects (compressShape d bp) bp']
    have hmap : (compressShape d bp).projects.map (shapeProjEntry bp')
        = (compressShape d bp).projects := by
      apply map_eq_self_of
      intro p hp
      rw [compressShape_projects] at hp
      obtain ⟨x, -, rfl⟩ := mem_map_take hp
      exact shapeProjEntry_fixed x p2 h6 p4 h8
    rw [hmap]
    apply List.take_of_length_le
    rw [compressShape_projects]
    exact le_trans (List.length_take_le _ _) h2
  have hedu : (compressShape (compressShape d bp) bp').education
      = (compressShape d bp).education := by
    rw [compressShape_education (compressShape d bp) bp']
    have hmap : (compressShape d bp).education.map shapeEduEntry
        = (compressShape d bp).education := by
      apply map_eq_self_of
      intro u hu
      rw [compressShape_education] at hu
      obtain ⟨x, -, rfl⟩ := mem_map_take hu
      exact shapeEduEntry_idem x
    rw [hmap]
    apply List.take_of_length_le
    rw [compressShape_education]
    exact le_trans (List.length_take_le _ _) h3
  have hcertnorm : (compressShape d bp).certifications.map normalizeCertDict
      = (compressShape d bp).certifications := by
    apply map_eq_self_of
    intro c hc
    rw [compressShape_certifications] at hc
    have hc2 := List.Sublist.mem hc (List.take_sublist _ _)
    obtain ⟨c0, hc0, rfl, -⟩ := dedupCerts_mem_shape hc2
    obtain ⟨c1, -, rfl⟩ := List.mem_map.1 hc0
    exact normalizeCertDict_clean_fixed c1
  have hcertprops : ∀ c ∈ (compressShape d bp).certifications,
      cleanCert c = c ∧ certIsEmpty c = false := by
    intro c hc
    rw [compressShape_certifications] at hc
    have hc2 := List.Sublist.mem hc (List.take_sublist _ _)
    obtain ⟨c0, -, rfl, hemp⟩ := dedupCerts_mem_shape hc2
    exact ⟨cleanCert_idem c0, hemp⟩
  have hcertpair : ((compressShape d bp).certifications).Pairwise
      (fun a b => certKey a ≠ certKey b) := by
    rw [compressShape_certifications]
    exact List.Pairwise.sublist (List.take_sublist _ _)
      (dedupCerts_distinct _ []).1
  have hcert : (compressShape (compressShape d bp) bp').certifications
      = (compressShape d bp).certifications := by
    rw [compressShape_certifications (compressShape d bp) bp', hcertnorm,
      dedupCerts_eq_self hcertprops hcertpair (fun c _ => by simp)]
    apply List.take_of_length_le
    rw [compressShape_certifications]
    exact le_trans (List.length_take_le _ _) h4
  have hsk : (compressShape (compressShape d bp) bp').skills
      = (compressShape d bp).skills := by
    rw [compressShape_skills (compressShape d bp) bp']
    have hmap : (compressShape d bp).skills.map (fun s => shorten_text s 90)
        = (compressShape d bp).skills := by
      apply map_eq_self_of
      intro s hs
      rw [compressShape_skills] at hs
      obtain ⟨a, -, rfl⟩ := mem_map_take hs
      exact shorten_text_idem (by omega) (Nat.le_refl _) a
    rw [hmap]
    apply List.take_of_length_le
    rw [compressShape_skills]
    exact List.length_take_le _ _
  have hpub : (compressShape (compressShape d bp) bp').publications
      = (compressShape d bp).publications := by
    rw [compressShape_publications (compressShape d bp) bp']
    apply List.take_of_length_le
    rw [compressShape_publications]
    exact List.length_take_le _ _
  have hshow : (compressShape (compressShape d bp) bp').show_summary
      = (compressShape d bp).show_summary := by
    rw [compressShape_show_summary_eq (compressShape d bp) bp', hexp, hsk,
      hedu, compressShape_summary,
      compressShape_show_summary_eq d bp]
  exact recordExt rfl rfl rfl rfl rfl rfl rfl hsk rfl rfl rfl hexp hproj
    hedu hcert hpub hshow rfl

/-! ## C4 — idempotence of the one-page compressor -/

/-- C4 counterexample: the record with the single whitespace-only skill
`" "` is sanitized (sanitizing it again changes nothing), yet compressing
it twice differs from compressing it once — the first compression
shortens the skill to `""`, which the second run's sanitization then
drops, so the skills lists disagree (`[""]` versus `[]`). -/
theorem claim_C4_counterexample :
    sanitize_struct (injRecord (sanitize_struct wsSkillRaw))
        = sanitize_struct wsSkillRaw
    ∧ compress_payload_for_one_page
        (injRecord (compress_payload_for_one_page
          (injRecord (sanitize_struct wsSkillRaw))))
      ≠ compress_payload_for_one_page
          (injRecord (sanitize_struct wsSkillRaw)) := by
  decide

/-- C4 (amended): `compress_payload_for_one_page` is idempotent on every
record none of whose skills shortens (at cap 90) to the empty string,
none of whose education details shortens (at cap 120) to the empty
string, and none of whose experience entries has a non-blank start date
with a blank end date (which would otherwise inject `"Present"` and can
grow the size proxy across a band boundary).  Without these provisos the
claim is false, as `claim_C4_counterexample` shows. -/
theorem claim_C4_compress_idempotent (r0 : RawRecord)
    (H1 : ∀ s ∈ (sanitize_struct r0).skills, shorten_text s 90 ≠ "")
    (H2 : ∀ e ∈ (sanitize_struct r0).education,
      ∀ x ∈ e.details, shorten_text x 120 ≠ "")
    (H3 : ∀ e ∈ (sanitize_struct r0).experience,
      pyStrip e.start_date = "" ∨ pyStrip e.end_date ≠ "") :
    compress_payload_for_one_page
        (injRecord (compress_payload_for_one_page r0))
      = compress_payload_for_one_page r0 := by
  simp only [compress_payload_for_one_page]
  have e1 := sanitize_compressShape_fix (sanitize_struct r0)
      (bandParams (_approx_char_count (sanitize_struct r0))) H1 H2
  rw [e1]
  have e2 := approx_compressShape_le (sanitize_struct r0)
      (bandParams (_approx_char_count (sanitize_struct r0))) H3
  have e3 := bandParams_mono e2
  have p := bandParams_pos (_approx_char_count (sanitize_struct r0))
  exact compressShape_fixed (sanitize_struct r0) _ _
    e3.1 e3.2.1 e3.2.2.1 e3.2.2.2.1 e3.2.2.2.2.1 e3.2.2.2.2.2.1
    e3.2.2.2.2.2.2.1 e3.2.2.2.2.2.2.2 p.1 p.2.1 p.2.2.1 p.2.2.2

/-- C4 witness: the amended idempotence theorem applied to a concrete
record with real skills, an experience entry with both dates, and no
education details. -/
theorem claim_C4_compress_idempotent_witness :
    compress_payload_for_one_page
        (injRecord (compress_payload_for_one_page c4WitRaw))
      = compress_payload_for_one_page c4WitRaw :=
  claim_C4_compress_idempotent c4WitRaw (by decide) (by decide) (by decide)

end TellerMade
